import Mathlib

/-!
Selection problem (`selection.c`): naive selector, partition, quickselect

A shallow embedding of the three functions of `selection.c`.

* The `int` array is a `List Int`; every array access is checked, an access
  outside `0 .. length-1` makes the computation fail (`none`).
* C `int` variables are `Int`.  The only arithmetic done on them is `+ 1`,
  `- 1` on indices that stay inside `-1 .. n`, so no machine overflow occurs
  and no reduction modulo `2^32` is needed; array values are only compared.
* Loops are recursive functions with a fuel argument; running out of fuel is
  `none` as well.  Each caller passes the fuel written in its definition, and
  the theorems prove that this fuel is enough.
* A local variable that C leaves uninitialised (`lasti` in `naive`) is an
  `Option Int`; reading it while it is `none` fails.
* `random()` is an oracle `rnd : Nat → Nat`: the `c`-th call returns `rnd c`.
* Every function returns the final array together with its C return value.
-/

namespace Selection

/-! ## Memory -/

/-- Checked array read `A[i]`. -/
def rd (A : List Int) (i : Int) : Option Int :=
  if 0 ≤ i then A[i.toNat]? else none

/-- Checked array write `A[i] = v`. -/
def wr (A : List Int) (i : Int) (v : Int) : Option (List Int) :=
  if 0 ≤ i ∧ i < A.length then some (A.set i.toNat v) else none

/-! ## `naive` (lines 22-40) -/

/-- The test `list[i] < min && (list[i] > last || (list[i] == last && lasti < i))`
with C short-circuit evaluation; `x` is `list[i]`. -/
def naiveCond (x min last : Int) (lasti : Option Int) (i : Int) : Option Bool :=
  if x < min then
    if x > last then some true
    else if x = last then
      match lasti with
      | some li => some (decide (li < i))
      | none => none
    else some false
  else some false

/-- The loop `for (i=1; i<n; i++) ...` of `naive`, entered at `i`; returns
`(min, mini)`. -/
def naiveFor : Nat → List Int → Int → Int → Option Int → Int → Int → Int →
    Option (Int × Int)
  | 0, _, _, _, _, _, _, _ => none
  | fuel + 1, list, n, last, lasti, i, min, mini =>
    if i < n then
      match rd list i with
      | none => none
      | some x =>
        match naiveCond x min last lasti i with
        | none => none
        | some true => naiveFor fuel list n last lasti (i + 1) x i
        | some false => naiveFor fuel list n last lasti (i + 1) min mini
    else some (min, mini)

/-- One run of the body of `while (k--)` up to the end of the `for` loop:
`mini = 0; min = list[mini]; for ...`; returns `(min, mini)`. -/
def naiveIter (list : List Int) (n last : Int) (lasti : Option Int) : Option (Int × Int) :=
  match rd list 0 with
  | none => none
  | some min0 => naiveFor (n.toNat + 1) list n last lasti 1 min0 0

/-- The loop `while (k--) ...` of `naive`; the first argument is the number of
iterations still to run.  Each iteration ends with `lasti = mini; last = min`.
Returns the array and `last`. -/
def naiveWhile : Nat → List Int → Int → Int → Option Int → Option (List Int × Int)
  | 0, list, _, last, _ => some (list, last)
  | k + 1, list, n, last, lasti =>
    match naiveIter list n last lasti with
    | none => none
    | some (min, mini) => naiveWhile k list n min (some mini)

/-- Embedding of `int naive(int *list, int n, int k)`.  A negative `k` makes
`while (k--)` run into signed overflow and is not given a result. -/
def naive (list : List Int) (n k : Int) : Option (List Int × Int) :=
  if k < 0 then none else naiveWhile k.toNat list n (-1) none

/-! ## `partition` (lines 48-69) -/

/-- The loop `while(r >= l && A[r] > p) r--;`, returns the final `r`. -/
def scanR : Nat → List Int → Int → Int → Int → Option Int
  | 0, _, _, _, _ => none
  | fuel + 1, A, l, p, r =>
    if r ≥ l then
      match rd A r with
      | none => none
      | some v => if v > p then scanR fuel A l p (r - 1) else some r
    else some r

/-- The loop `while(l < r && A[l] <= p) l++;`, returns the final `l`. -/
def scanL : Nat → List Int → Int → Int → Int → Option Int
  | 0, _, _, _, _ => none
  | fuel + 1, A, r, p, l =>
    if l < r then
      match rd A l with
      | none => none
      | some v => if v ≤ p then scanL fuel A r p (l + 1) else some l
    else some l

/-- The loop `for (;;) ...` of `partition`; returns the array and `r` at the
`break`. -/
def partLoop : Nat → List Int → Int → Int → Int → Option (List Int × Int)
  | 0, _, _, _, _ => none
  | fuel + 1, A, l, r, p =>
    match scanR (A.length + 1) A l p r with
    | none => none
    | some r1 =>
      match scanL (A.length + 1) A r1 p l with
      | none => none
      | some l1 =>
        if l1 ≥ r1 then some (A, r1)
        else
          match rd A l1, rd A r1 with
          | some swap, some ar =>
            match wr A l1 ar with
            | none => none
            | some A1 =>
              match wr A1 r1 swap with
              | none => none
              | some A2 => partLoop fuel A2 l1 r1 p
          | _, _ => none

/-- Embedding of `int partition(int *A, int left, int right, int pivot)`. -/
def partition (A : List Int) (left right pivot : Int) : Option (List Int × Int) :=
  match rd A pivot, rd A left with
  | some p, some al =>
    match wr A pivot al with
    | none => none
    | some A1 =>
      match partLoop (A.length + 1) A1 (left + 1) right p with
      | none => none
      | some (A2, r) =>
        match rd A2 r with
        | none => none
        | some ar =>
          match wr A2 left ar with
          | none => none
          | some A3 =>
            match wr A3 r p with
            | none => none
            | some A4 => some (A4, r)
  | _, _ => none

/-! ## `quickselect` (lines 75-94) -/

/-- One run of the body of `while (pivot != target)`, where `rv` is the value
returned by `random()`; returns the new `(list, left, right, pivot)`.  A zero
divisor in `%` has no result. -/
def qsBody (rv : Nat) (list : List Int) (left right target : Int) :
    Option (List Int × Int × Int × Int) :=
  if right - left + 1 = 0 then none
  else
    match partition list left right (left + (rv : Int) % (right - left + 1)) with
    | none => none
    | some (list1, pivot) =>
      some (list1, if pivot < target then pivot + 1 else left,
        if pivot > target then pivot - 1 else right, pivot)

/-- The loop `while (pivot != target) ...` of `quickselect`; `c` counts the
calls to `random()` made so far.  Returns the array at loop exit. -/
def qsLoop : Nat → (Nat → Nat) → Nat → List Int → Int → Int → Int → Int →
    Option (List Int)
  | 0, _, _, _, _, _, _, _ => none
  | fuel + 1, rnd, c, list, left, right, pivot, target =>
    if pivot ≠ target then
      match qsBody (rnd c) list left right target with
      | none => none
      | some (list1, left1, right1, pivot1) =>
        qsLoop fuel rnd (c + 1) list1 left1 right1 pivot1 target
    else some list

/-- Embedding of `int quickselect(int *list, int n, int k)`. -/
def quickselect (rnd : Nat → Nat) (list : List Int) (n k : Int) :
    Option (List Int × Int) :=
  match qsLoop (n.toNat + 1) rnd 0 list 0 (n - 1) (-1) (k - 1) with
  | none => none
  | some list1 =>
    match rd list1 (k - 1) with
    | none => none
    | some v => some (list1, v)

/-! ## Specification side -/

/-- The ascending sort of `S`, the `sorted(S)` of the specification. -/
def sorted (S : List Int) : List Int := S.insertionSort (· ≤ ·)

/-- Unchecked read used to state properties of in-range cells. -/
def getI (A : List Int) (i : Int) : Int := A.getD i.toNat 0

/-- Every cell before index `a` is at most every cell from index `a` on. -/
def Sep (A : List Int) (a : Int) : Prop :=
  ∀ i j, 0 ≤ i → i < a → a ≤ j → j < A.length → getI A i ≤ getI A j

/-! ## Instrumented variants

The same functions, additionally returning what a claim about the run itself
needs: the indices of the cells accessed, the active range at each `partition`
call, the successive values of `mini`. -/

/-- The loop of `scanR` that also returns the indices of the cells it reads. -/
def scanRLog : Nat → List Int → Int → Int → Int → Option (Int × List Int)
  | 0, _, _, _, _ => none
  | fuel + 1, A, l, p, r =>
    if r ≥ l then
      match rd A r with
      | none => none
      | some v =>
        if v > p then
          match scanRLog fuel A l p (r - 1) with
          | none => none
          | some (r1, log) => some (r1, r :: log)
        else some (r, [r])
    else some (r, [])

/-- The loop of `scanL` that also returns the indices of the cells it reads. -/
def scanLLog : Nat → List Int → Int → Int → Int → Option (Int × List Int)
  | 0, _, _, _, _ => none
  | fuel + 1, A, r, p, l =>
    if l < r then
      match rd A l with
      | none => none
      | some v =>
        if v ≤ p then
          match scanLLog fuel A r p (l + 1) with
          | none => none
          | some (l1, log) => some (l1, l :: log)
        else some (l, [l])
    else some (l, [])

/-- The loop of `partLoop` that also returns the indices of the cells it reads or
writes: the two scans, then `swap = A[l]; A[l] = A[r]; A[r] = swap`. -/
def partLoopLog : Nat → List Int → Int → Int → Int → Option (List Int × Int × List Int)
  | 0, _, _, _, _ => none
  | fuel + 1, A, l, r, p =>
    match scanRLog (A.length + 1) A l p r with
    | none => none
    | some (r1, logR) =>
      match scanLLog (A.length + 1) A r1 p l with
      | none => none
      | some (l1, logL) =>
        if l1 ≥ r1 then some (A, r1, logR ++ logL)
        else
          match rd A l1, rd A r1 with
          | some swap, some ar =>
            match wr A l1 ar with
            | none => none
            | some A1 =>
              match wr A1 r1 swap with
              | none => none
              | some A2 =>
                match partLoopLog fuel A2 l1 r1 p with
                | none => none
                | some (A3, r3, log) =>
                  some (A3, r3, logR ++ logL ++ [l1, r1, l1, r1] ++ log)
          | _, _ => none

/-- The function `partition` that also returns the indices of the cells it reads
or writes: `p = A[pivot]; A[pivot] = A[left]`, the loop,
`A[left] = A[r]; A[r] = p`. -/
def partitionLog (A : List Int) (left right pivot : Int) :
    Option (List Int × Int × List Int) :=
  match rd A pivot, rd A left with
  | some p, some al =>
    match wr A pivot al with
    | none => none
    | some A1 =>
      match partLoopLog (A.length + 1) A1 (left + 1) right p with
      | none => none
      | some (A2, r, log) =>
        match rd A2 r with
        | none => none
        | some ar =>
          match wr A2 left ar with
          | none => none
          | some A3 =>
            match wr A3 r p with
            | none => none
            | some A4 => some (A4, r, [pivot, left, pivot] ++ log ++ [r, left, r])
  | _, _ => none

/-- The loop of `qsLoop` that also returns the pairs `(left, right)` with which
`partition` is called, in order. -/
def qsLoopLog : Nat → (Nat → Nat) → Nat → List Int → Int → Int → Int → Int →
    Option (List Int × List (Int × Int))
  | 0, _, _, _, _, _, _, _ => none
  | fuel + 1, rnd, c, list, left, right, pivot, target =>
    if pivot ≠ target then
      match qsBody (rnd c) list left right target with
      | none => none
      | some (list1, left1, right1, pivot1) =>
        match qsLoopLog fuel rnd (c + 1) list1 left1 right1 pivot1 target with
        | none => none
        | some (list2, tr) => some (list2, (left, right) :: tr)
    else some (list, [])

/-- The loop of `naiveWhile` that returns the value of `mini` at the end of each
iteration, in order. -/
def naiveMinis : Nat → List Int → Int → Int → Option Int → Option (List Int)
  | 0, _, _, _, _ => some []
  | k + 1, list, n, last, lasti =>
    match naiveIter list n last lasti with
    | none => none
    | some (min, mini) =>
      match naiveMinis k list n min (some mini) with
      | none => none
      | some ms => some (mini :: ms)

/-- The number of cells of `A[left .. right]` whose value is at most `p`. -/
def countLe (A : List Int) (left right p : Int) : Nat :=
  ((A.drop left.toNat).take (right - left + 1).toNat).countP (fun x => decide (x ≤ p))

/-- The number of positions `i` of `S` whose pair `(S[i], i)` is at most `(v, d)` in
the order "value, then index" that `naive` uses to exclude what it has selected. -/
def rankLe (S : List Int) (v d : Int) : Nat :=
  (List.range S.length).countP
    (fun i : Nat => decide (getI S (i : Int) < v ∨ (getI S (i : Int) = v ∧ (i : Int) ≤ d)))

/-! ## Memory lemmas -/

theorem rd_eq {A : List Int} {i : Int} (h0 : 0 ≤ i) (h1 : i < A.length) :
    rd A i = some (getI A i) := by
  have h : i.toNat < A.length := by omega
  simp [rd, getI, h0, List.getD, List.getElem?_eq_getElem h]

theorem wr_eq {A : List Int} {i : Int} (v : Int) (h0 : 0 ≤ i) (h1 : i < A.length) :
    wr A i v = some (A.set i.toNat v) := by
  simp [wr, h0, h1]

theorem getI_set_same {A : List Int} {i : Int} (v : Int) (h0 : 0 ≤ i)
    (h1 : i < A.length) : getI (A.set i.toNat v) i = v := by
  have h : i.toNat < A.length := by omega
  simp [getI, List.getD, h]

theorem getI_set_ne {A : List Int} {i j : Int} (v : Int) (h0 : 0 ≤ i) (h1 : 0 ≤ j)
    (hne : i ≠ j) : getI (A.set i.toNat v) j = getI A j := by
  have h : i.toNat ≠ j.toNat := by omega
  simp [getI, List.getD, List.getElem?_set_ne h]

theorem count_set_add (A : List Int) {i : Int} (v x : Int) (h0 : 0 ≤ i)
    (h1 : i < A.length) :
    (A.set i.toNat v).count x + (if getI A i = x then 1 else 0)
      = A.count x + (if v = x then 1 else 0) := by
  have h : i.toNat < A.length := by omega
  have hle := List.boole_getElem_le_count x A i.toNat h
  have hg : getI A i = A[i.toNat] := by simp [getI, List.getD, h]
  rw [List.count_set v x A i.toNat h, hg]
  simp only [beq_iff_eq] at hle ⊢
  omega


/-! ## The two scans of `partition` -/

theorem scanR_spec (A : List Int) (l p : Int) (hl : 0 < l) :
    ∀ (fuel : Nat) (r : Int), l ≤ r + 1 → r < A.length → (r - l + 1).toNat < fuel →
      ∃ r1, scanR fuel A l p r = some r1 ∧ l - 1 ≤ r1 ∧ r1 ≤ r ∧
        (∀ i, r1 < i → i ≤ r → p < getI A i) ∧ (l ≤ r1 → getI A r1 ≤ p) := by
  intro fuel
  induction fuel with
  | zero => intro r _ _ hf; omega
  | succ f ih =>
    intro r hlr hr hf
    by_cases hge : r ≥ l
    · have hrd : rd A r = some (getI A r) := rd_eq (by omega) hr
      by_cases hv : getI A r > p
      · obtain ⟨r1, h1, h2, h3, h4, h5⟩ := ih (r - 1) (by omega) (by omega) (by omega)
        refine ⟨r1, ?_, h2, by omega, ?_, h5⟩
        · simp [scanR, hge, hrd, hv, h1]
        · intro i hi1 hi2
          by_cases hir : i = r
          · subst hir; exact hv
          · exact h4 i hi1 (by omega)
      · refine ⟨r, ?_, by omega, le_refl _, ?_, ?_⟩
        · simp [scanR, hge, hrd, hv]
        · intro i hi1 hi2; omega
        · intro _; omega
    · refine ⟨r, ?_, by omega, le_refl _, ?_, ?_⟩
      · simp [scanR, hge]
      · intro i hi1 hi2; omega
      · intro h; omega

theorem scanL_spec (A : List Int) (r p : Int) (hr : r < A.length) :
    ∀ (fuel : Nat) (l : Int), 0 ≤ l → (r - l).toNat < fuel →
      ∃ l1, scanL fuel A r p l = some l1 ∧ l ≤ l1 ∧ (l ≤ r → l1 ≤ r) ∧ (r ≤ l → l1 = l) ∧
        (∀ i, l ≤ i → i < l1 → getI A i ≤ p) ∧ (l1 < r → p < getI A l1) := by
  intro fuel
  induction fuel with
  | zero => intro l _ hf; omega
  | succ f ih =>
    intro l hl hf
    by_cases hlt : l < r
    · have hrd : rd A l = some (getI A l) := rd_eq hl (by omega)
      by_cases hv : getI A l ≤ p
      · obtain ⟨l1, h1, h2, h3, h4, h5, h6⟩ := ih (l + 1) (by omega) (by omega)
        refine ⟨l1, ?_, by omega, fun _ => h3 (by omega), fun h => by omega, ?_, h6⟩
        · simp [scanL, hlt, hrd, hv, h1]
        · intro i hi1 hi2
          by_cases hil : i = l
          · subst hil; exact hv
          · exact h5 i (by omega) hi2
      · refine ⟨l, ?_, le_refl _, fun h => h, fun _ => rfl, ?_, ?_⟩
        · simp [scanL, hlt, hrd, hv]
        · intro i hi1 hi2; omega
        · intro _; omega
    · refine ⟨l, ?_, le_refl _, fun h => h, fun _ => rfl, ?_, ?_⟩
      · simp [scanL, hlt]
      · intro i hi1 hi2; omega
      · intro h; omega


/-! ## The main loop of `partition` -/

theorem partLoop_spec (p : Int) :
    ∀ (fuel : Nat) (A : List Int) (l r : Int), 0 < l → l ≤ r + 1 → r < A.length →
      ((r - l).toNat < fuel ∨
        (l < r ∧ getI A l ≤ p ∧ p < getI A r ∧ (r - l).toNat ≤ fuel)) →
      ∃ A1 r1, partLoop fuel A l r p = some (A1, r1) ∧ A1.length = A.length ∧
        l - 1 ≤ r1 ∧ r1 ≤ r ∧
        (∀ i, l ≤ i → i ≤ r1 → getI A1 i ≤ p) ∧
        (∀ i, r1 < i → i ≤ r → p < getI A1 i) ∧
        (∀ x, A1.count x = A.count x) ∧
        (∀ i, 0 ≤ i → (i < l ∨ r < i) → getI A1 i = getI A i) ∧
        (∀ i, l ≤ i → i ≤ r → ∃ j, l ≤ j ∧ j ≤ r ∧ getI A1 i = getI A j) := by
  intro fuel
  induction fuel with
  | zero => intro A l r _ _ _ hf; omega
  | succ f ih =>
    intro A l r hl hlr hr hf
    obtain ⟨r1, hs1, hr1a, hr1b, hr1c, hr1d⟩ :=
      scanR_spec A l p hl (A.length + 1) r hlr hr (by omega)
    obtain ⟨l1, hs2, hl1a, hl1b, hl1c, hl1d, hl1e⟩ :=
      scanL_spec A r1 p (by omega) (A.length + 1) l (by omega) (by omega)
    by_cases hb : l1 ≥ r1
    · refine ⟨A, r1, ?_, rfl, hr1a, hr1b, ?_, hr1c, fun _ => rfl, fun _ _ _ => rfl,
        fun i hi1 hi2 => ⟨i, hi1, hi2, rfl⟩⟩
      · simp [partLoop, hs1, hs2, hb]
      · intro i hi1 hi2
        have hl1 : l1 = r1 := by have := hl1b (by omega); omega
        by_cases hir : i = r1
        · subst hir; exact hr1d hi1
        · exact hl1d i hi1 (by omega)
    · have hlt : l1 < r1 := by omega
      have hrdl : rd A l1 = some (getI A l1) := rd_eq (by omega) (by omega)
      have hrdr : rd A r1 = some (getI A r1) := rd_eq (by omega) (by omega)
      have hw1 : wr A l1 (getI A r1) = some (A.set l1.toNat (getI A r1)) :=
        wr_eq _ (by omega) (by omega)
      have hw2 : wr (A.set l1.toNat (getI A r1)) r1 (getI A l1)
          = some ((A.set l1.toNat (getI A r1)).set r1.toNat (getI A l1)) :=
        wr_eq _ (by omega) (by simp; omega)
      have hA2l : getI ((A.set l1.toNat (getI A r1)).set r1.toNat (getI A l1)) l1
          = getI A r1 := by
        rw [getI_set_ne _ (by omega) (by omega) (by omega),
          getI_set_same _ (by omega) (by omega)]
      have hA2r : getI ((A.set l1.toNat (getI A r1)).set r1.toNat (getI A l1)) r1
          = getI A l1 :=
        getI_set_same _ (by omega) (by simp; omega)
      have hmove : r1 - l1 ≤ r - l ∧ (getI A l ≤ p → p < getI A r → r1 - l1 + 2 ≤ r - l) := by
        refine ⟨by omega, fun ha hb2 => ?_⟩
        have h1 : r1 ≠ r := by
          intro h; subst h; have := hr1d (by omega); omega
        have h2 : l1 ≠ l := by
          intro h; subst h; have := hl1e hlt; omega
        omega
      obtain ⟨A3, r3, hrun, hlen, h3a, h3b, h3c, h3d, h3e, h3f, h3g⟩ :=
        ih ((A.set l1.toNat (getI A r1)).set r1.toNat (getI A l1)) l1 r1 (by omega)
          (by omega) (by simp; omega)
          (Or.inr ⟨hlt, by rw [hA2l]; exact hr1d (by omega),
            by rw [hA2r]; exact hl1e hlt, by
              rcases hf with hf | ⟨_, ha, hb2, hf⟩
              · omega
              · have := hmove.2 ha hb2; omega⟩)
      refine ⟨A3, r3, ?_, by simpa using hlen, by omega, by omega, ?_, ?_, ?_, ?_, ?_⟩
      · simp [partLoop, hs1, hs2, hb, hrdl, hrdr, hw1, hw2, hrun]
      · intro i hi1 hi2
        by_cases hil : l1 ≤ i
        · exact h3c i hil hi2
        · rw [h3f i (by omega) (Or.inl (by omega)),
            getI_set_ne _ (by omega) (by omega) (by omega),
            getI_set_ne _ (by omega) (by omega) (by omega)]
          exact hl1d i hi1 (by omega)
      · intro i hi1 hi2
        by_cases hir : i ≤ r1
        · exact h3d i hi1 hir
        · rw [h3f i (by omega) (Or.inr (by omega)),
            getI_set_ne _ (by omega) (by omega) (by omega),
            getI_set_ne _ (by omega) (by omega) (by omega)]
          exact hr1c i (by omega) hi2
      · intro x
        have c1 := count_set_add A (getI A r1) x (show 0 ≤ l1 by omega) (by omega)
        have c2 := count_set_add (A.set l1.toNat (getI A r1)) (getI A l1) x
          (show 0 ≤ r1 by omega) (by simp; omega)
        rw [getI_set_ne _ (by omega) (by omega) (by omega)] at c2
        rw [h3e x]
        omega
      · intro i hi0 hi
        rw [h3f i hi0 (by omega),
          getI_set_ne _ (by omega) (by omega) (by omega),
          getI_set_ne _ (by omega) (by omega) (by omega)]
      · intro i hi1 hi2
        by_cases hin : l1 ≤ i ∧ i ≤ r1
        · obtain ⟨j, hj1, hj2, hj⟩ := h3g i hin.1 hin.2
          by_cases hjl : j = l1
          · subst hjl; exact ⟨r1, by omega, by omega, by rw [hj, hA2l]⟩
          · by_cases hjr : j = r1
            · subst hjr; exact ⟨l1, by omega, by omega, by rw [hj, hA2r]⟩
            · refine ⟨j, by omega, by omega, ?_⟩
              rw [hj, getI_set_ne _ (by omega) (by omega) (Ne.symm hjr),
                getI_set_ne _ (by omega) (by omega) (Ne.symm hjl)]
        · refine ⟨i, hi1, hi2, ?_⟩
          rw [h3f i (by omega) (by omega),
            getI_set_ne _ (by omega) (by omega) (by omega),
            getI_set_ne _ (by omega) (by omega) (by omega)]


/-! ## `partition` -/

theorem partition_spec (A : List Int) (left right pivot : Int) (h0 : 0 ≤ left)
    (h1 : left ≤ pivot) (h2 : pivot ≤ right) (h3 : right < A.length) :
    ∃ A4 r, partition A left right pivot = some (A4, r) ∧ A4.length = A.length ∧
      left ≤ r ∧ r ≤ right ∧ getI A4 r = getI A pivot ∧
      (∀ i, left ≤ i → i ≤ r → getI A4 i ≤ getI A pivot) ∧
      (∀ i, r < i → i ≤ right → getI A pivot < getI A4 i) ∧
      (∀ x, A4.count x = A.count x) ∧
      (∀ i, 0 ≤ i → (i < left ∨ right < i) → getI A4 i = getI A i) ∧
      (∀ i, left ≤ i → i ≤ right → ∃ j, left ≤ j ∧ j ≤ right ∧ getI A4 i = getI A j) := by
  have hrdp : rd A pivot = some (getI A pivot) := rd_eq (by omega) (by omega)
  have hrdl : rd A left = some (getI A left) := rd_eq h0 (by omega)
  have hw1 : wr A pivot (getI A left) = some (A.set pivot.toNat (getI A left)) :=
    wr_eq _ (by omega) (by omega)
  obtain ⟨A2, r, hrun, hlen, ha, hb, hc, hd, he, hf, hg⟩ :=
    partLoop_spec (getI A pivot) (A.length + 1) (A.set pivot.toNat (getI A left))
      (left + 1) right (by omega) (by omega) (by simp; omega) (Or.inl (by omega))
  simp only [List.length_set] at hlen hrun
  have hrdr : rd A2 r = some (getI A2 r) := rd_eq (by omega) (by omega)
  have hw2 : wr A2 left (getI A2 r) = some (A2.set left.toNat (getI A2 r)) :=
    wr_eq _ h0 (by omega)
  have hw3 : wr (A2.set left.toNat (getI A2 r)) r (getI A pivot)
      = some ((A2.set left.toNat (getI A2 r)).set r.toNat (getI A pivot)) :=
    wr_eq _ (by omega) (by simp; omega)
  have hA2left : getI A2 left = getI A left := by
    rw [hf left h0 (Or.inl (by omega))]
    by_cases hpl : pivot = left
    · subst hpl; exact getI_set_same _ h0 (by omega)
    · exact getI_set_ne _ (by omega) h0 hpl
  have hA3r : getI (A2.set left.toNat (getI A2 r)) r = getI A2 r := by
    by_cases hrl : left = r
    · subst hrl; exact getI_set_same _ h0 (by omega)
    · exact getI_set_ne _ h0 (by omega) hrl
  refine ⟨(A2.set left.toNat (getI A2 r)).set r.toNat (getI A pivot), r, ?_, by simp [hlen],
    by omega, hb, getI_set_same _ (by omega) (by simp; omega), ?_, ?_, ?_, ?_, ?_⟩
  · simp [partition, hrdp, hrdl, hw1, hrun, hrdr, hw2, hw3]
  · intro i hi1 hi2
    by_cases hir : i = r
    · subst hir; rw [getI_set_same _ (by omega) (by simp; omega)]
    · rw [getI_set_ne _ (by omega) (by omega) (Ne.symm hir)]
      by_cases hil : i = left
      · subst hil
        rw [getI_set_same _ h0 (by omega)]
        exact hc r (by omega) (le_refl _)
      · rw [getI_set_ne _ h0 (by omega) (Ne.symm hil)]
        exact hc i (by omega) hi2
  · intro i hi1 hi2
    rw [getI_set_ne _ (by omega) (by omega) (by omega),
      getI_set_ne _ h0 (by omega) (by omega)]
    exact hd i hi1 hi2
  · intro x
    have c1 := count_set_add A (getI A left) x (show 0 ≤ pivot by omega) (by omega)
    have c2 := count_set_add A2 (getI A2 r) x h0 (by omega)
    have c3 := count_set_add (A2.set left.toNat (getI A2 r)) (getI A pivot) x
      (show 0 ≤ r by omega) (by simp; omega)
    rw [hA3r] at c3
    rw [hA2left] at c2
    have c4 := he x
    omega
  · intro i hi0 hi
    rw [getI_set_ne _ (by omega) hi0 (by omega), getI_set_ne _ h0 hi0 (by omega),
      hf i hi0 (by omega), getI_set_ne _ (by omega) hi0 (by omega)]
  · have hsrc : ∀ j, left + 1 ≤ j → j ≤ right →
        ∃ j1, left ≤ j1 ∧ j1 ≤ right ∧
          getI (A.set pivot.toNat (getI A left)) j = getI A j1 := by
      intro j hj1 hj2
      by_cases hjp : j = pivot
      · subst hjp; exact ⟨left, le_refl _, by omega, getI_set_same _ (by omega) (by omega)⟩
      · exact ⟨j, by omega, hj2, getI_set_ne _ (by omega) (by omega) (Ne.symm hjp)⟩
    intro i hi1 hi2
    by_cases hir : i = r
    · subst hir
      exact ⟨pivot, h1, h2, getI_set_same _ (by omega) (by simp; omega)⟩
    · rw [getI_set_ne _ (by omega) (by omega) (Ne.symm hir)]
      by_cases hil : i = left
      · subst hil
        rw [getI_set_same _ h0 (by omega)]
        obtain ⟨j, hj1, hj2, hj⟩ := hg r (by omega) hb
        obtain ⟨j1, hj3, hj4, hj5⟩ := hsrc j hj1 hj2
        exact ⟨j1, hj3, hj4, by rw [hj, hj5]⟩
      · rw [getI_set_ne _ h0 (by omega) (Ne.symm hil)]
        obtain ⟨j, hj1, hj2, hj⟩ := hg i (by omega) hi2
        obtain ⟨j1, hj3, hj4, hj5⟩ := hsrc j hj1 hj2
        exact ⟨j1, hj3, hj4, by rw [hj, hj5]⟩


/-! ## `quickselect` -/

theorem sep_of_partition {A A4 : List Int} {left right r p : Int}
    (hlen : A4.length = A.length) (h0 : 0 ≤ left) (hlr : left ≤ r) (hrr : r ≤ right)
    (hright : right < A.length) (hr : getI A4 r = p)
    (hle : ∀ i, left ≤ i → i ≤ r → getI A4 i ≤ p)
    (hgt : ∀ i, r < i → i ≤ right → p < getI A4 i)
    (hfr : ∀ i, 0 ≤ i → (i < left ∨ right < i) → getI A4 i = getI A i)
    (hsrc : ∀ i, left ≤ i → i ≤ right → ∃ j, left ≤ j ∧ j ≤ right ∧ getI A4 i = getI A j)
    (hs1 : Sep A left) (hs2 : Sep A (right + 1)) :
    Sep A4 left ∧ Sep A4 r ∧ Sep A4 (r + 1) ∧ Sep A4 (right + 1) := by
  have key : ∀ i j : Int, 0 ≤ i → j < A4.length →
      ((i < left ∧ left ≤ j) ∨ (i ≤ right ∧ right < j) ∨
        (left ≤ i ∧ i ≤ r ∧ r ≤ j ∧ j ≤ right)) → getI A4 i ≤ getI A4 j := by
    intro i j hi0 hj hc
    rcases hc with ⟨h1, h2⟩ | ⟨h1, h2⟩ | ⟨h1, h2, h3, h4⟩
    · rw [hfr i hi0 (Or.inl h1)]
      by_cases hjr : right < j
      · rw [hfr j (by omega) (Or.inr hjr)]
        exact hs1 i j hi0 h1 h2 (by omega)
      · obtain ⟨j1, hj1, hj2, hj3⟩ := hsrc j h2 (by omega)
        rw [hj3]
        exact hs1 i j1 hi0 h1 hj1 (by omega)
    · rw [hfr j (by omega) (Or.inr h2)]
      by_cases hil : i < left
      · rw [hfr i hi0 (Or.inl hil)]
        exact hs2 i j hi0 (by omega) (by omega) (by omega)
      · obtain ⟨i1, hi1, hi2, hi3⟩ := hsrc i (by omega) h1
        rw [hi3]
        exact hs2 i1 j (by omega) (by omega) (by omega) (by omega)
    · have ha := hle i h1 h2
      by_cases hjr : j = r
      · subst hjr; omega
      · have hb := hgt j (by omega) h4
        omega
  refine ⟨?_, ?_, ?_, ?_⟩ <;> intro i j hi0 hia haj hj
  · exact key i j hi0 hj (Or.inl ⟨hia, haj⟩)
  · by_cases hil : i < left
    · exact key i j hi0 hj (Or.inl ⟨hil, by omega⟩)
    · by_cases hjr : right < j
      · exact key i j hi0 hj (Or.inr (Or.inl ⟨by omega, hjr⟩))
      · exact key i j hi0 hj (Or.inr (Or.inr ⟨by omega, by omega, haj, by omega⟩))
  · by_cases hil : i < left
    · exact key i j hi0 hj (Or.inl ⟨hil, by omega⟩)
    · by_cases hjr : right < j
      · exact key i j hi0 hj (Or.inr (Or.inl ⟨by omega, hjr⟩))
      · exact key i j hi0 hj (Or.inr (Or.inr ⟨by omega, by omega, by omega, by omega⟩))
  · exact key i j hi0 hj (Or.inr (Or.inl ⟨by omega, by omega⟩))

/-- One iteration of the `quickselect` loop from a state satisfying the loop
invariant: it succeeds, keeps the invariant, and either hits the target or
strictly shrinks the active range around it. -/
theorem qsBody_spec (rv : Nat) (A : List Int) (left right t : Int) (h0 : 0 ≤ left)
    (hlt : left ≤ t) (htr : t ≤ right) (hright : right < A.length)
    (hs1 : Sep A left) (hs2 : Sep A (right + 1)) :
    ∃ A1 left1 right1 pivot1,
      qsBody rv A left right t = some (A1, left1, right1, pivot1) ∧
      A1.length = A.length ∧ (∀ x, A1.count x = A.count x) ∧
      left ≤ pivot1 ∧ pivot1 ≤ right ∧
      (pivot1 = t → Sep A1 t ∧ Sep A1 (t + 1)) ∧
      (pivot1 ≠ t → 0 ≤ left1 ∧ left1 ≤ t ∧ t ≤ right1 ∧ right1 < A1.length ∧
        Sep A1 left1 ∧ Sep A1 (right1 + 1) ∧ right1 - left1 < right - left) := by
  have hpos : 0 < right - left + 1 := by omega
  have hm1 := Int.emod_nonneg (rv : Int) (show right - left + 1 ≠ 0 by omega)
  have hm2 := Int.emod_lt_of_pos (rv : Int) hpos
  obtain ⟨A4, r, hrun, hlen, ha, hb, hc, hd, he, hf, hg, hh⟩ :=
    partition_spec A left right (left + (rv : Int) % (right - left + 1)) h0 (by omega)
      (by omega) hright
  obtain ⟨s1, s2, s3, s4⟩ :=
    sep_of_partition hlen h0 ha hb hright hc hd he hg hh hs1 hs2
  refine ⟨A4, if r < t then r + 1 else left, if r > t then r - 1 else right, r, ?_, hlen,
    hf, ha, hb, ?_, ?_⟩
  · have hne : ¬ (right - left + 1 = 0) := by omega
    simp [qsBody, hne, hrun]
  · intro h; subst h; exact ⟨s2, s3⟩
  · intro hne
    by_cases hrt : r < t
    · have hrt2 : ¬ (r > t) := by omega
      simp only [hrt, hrt2, if_true, if_false]
      exact ⟨by omega, by omega, htr, by omega, s3, s4, by omega⟩
    · have hrt2 : r > t := by omega
      simp only [hrt, hrt2, if_true, if_false]
      refine ⟨h0, hlt, by omega, by omega, s1, ?_, by omega⟩
      simpa using s2


theorem qsLoop_spec (rnd : Nat → Nat) (t : Int) :
    ∀ (fuel c : Nat) (A : List Int) (left right pivot : Int),
      ((pivot = t ∧ Sep A t ∧ Sep A (t + 1) ∧ 0 < fuel) ∨
        (pivot ≠ t ∧ 0 ≤ left ∧ left ≤ t ∧ t ≤ right ∧ right < A.length ∧
          Sep A left ∧ Sep A (right + 1) ∧ (right - left).toNat + 1 < fuel)) →
      ∃ A1, qsLoop fuel rnd c A left right pivot t = some A1 ∧ A1.length = A.length ∧
        (∀ x, A1.count x = A.count x) ∧ Sep A1 t ∧ Sep A1 (t + 1) := by
  intro fuel
  induction fuel with
  | zero => intro c A left right pivot h; omega
  | succ f ih =>
    intro c A left right pivot h
    rcases h with ⟨hp, s1, s2, _⟩ | ⟨hp, h0, hlt, htr, hright, s1, s2, hf⟩
    · exact ⟨A, by simp [qsLoop, hp], rfl, fun _ => rfl, s1, s2⟩
    · obtain ⟨A1, left1, right1, pivot1, hrun, hlen, hcnt, _, _, hhit, hmiss⟩ :=
        qsBody_spec (rnd c) A left right t h0 hlt htr hright s1 s2
      have hnext : ∃ A2, qsLoop f rnd (c + 1) A1 left1 right1 pivot1 t = some A2 ∧
          A2.length = A1.length ∧ (∀ x, A2.count x = A1.count x) ∧
          Sep A2 t ∧ Sep A2 (t + 1) := by
        by_cases hp1 : pivot1 = t
        · exact ih (c + 1) A1 left1 right1 pivot1
            (Or.inl ⟨hp1, (hhit hp1).1, (hhit hp1).2, by omega⟩)
        · obtain ⟨a, b, c1, d, e, g, hdec⟩ := hmiss hp1
          exact ih (c + 1) A1 left1 right1 pivot1
            (Or.inr ⟨hp1, a, b, c1, d, e, g, by omega⟩)
      obtain ⟨A2, hrun2, hlen2, hcnt2, s3, s4⟩ := hnext
      refine ⟨A2, ?_, by omega, fun x => by rw [hcnt2 x, hcnt x], s3, s4⟩
      simp [qsLoop, hp, hrun, hrun2]

theorem quickselect_spec (rnd : Nat → Nat) (S : List Int) (n k : Int)
    (hn : n = S.length) (hk1 : 1 ≤ k) (hkn : k ≤ n) :
    ∃ A1, quickselect rnd S n k = some (A1, getI A1 (k - 1)) ∧ A1.length = S.length ∧
      (∀ x, A1.count x = S.count x) ∧ Sep A1 (k - 1) ∧ Sep A1 k := by
  obtain ⟨A1, hrun, hlen, hcnt, s1, s2⟩ :=
    qsLoop_spec rnd (k - 1) (n.toNat + 1) 0 S 0 (n - 1) (-1)
      (Or.inr ⟨by omega, le_refl _, by omega, by omega, by omega,
        fun i j hi0 hi _ _ => by omega, fun i j _ _ hj1 hj2 => by omega, by omega⟩)
  have hrd : rd A1 (k - 1) = some (getI A1 (k - 1)) := rd_eq (by omega) (by omega)
  refine ⟨A1, ?_, hlen, hcnt, s1, ?_⟩
  · simp [quickselect, hrun, hrd]
  · simpa using s2

/-! ## Order statistics -/

theorem countP_ge_of_head (q : Int → Bool) :
    ∀ (X : List Int) (m : Nat), m ≤ X.length →
      (∀ i : Nat, i < m → q (X.getD i 0) = true) → m ≤ X.countP q := by
  intro X
  induction X with
  | nil => intro m hm _; simpa using hm
  | cons x xs ih =>
    intro m hm h
    cases m with
    | zero => omega
    | succ m =>
      have hx : q x = true := by simpa using h 0 (by omega)
      have := ih m (by simpa using hm) (fun i hi => by simpa using h (i + 1) (by omega))
      rw [List.countP_cons_of_pos _ _ hx]
      omega

theorem countP_le_of_tail (q : Int → Bool) :
    ∀ (X : List Int) (m : Nat),
      (∀ i : Nat, m ≤ i → i < X.length → q (X.getD i 0) = false) → X.countP q ≤ m := by
  intro X
  induction X with
  | nil => intro m _; simp
  | cons x xs ih =>
    intro m h
    cases m with
    | zero =>
      have hx : ¬ (q x = true) := by simpa using h 0 (by omega) (by simp)
      have := ih 0 (fun i hi hi2 => by simpa using h (i + 1) (by omega) (by simpa using hi2))
      rw [List.countP_cons_of_neg _ _ hx]
      exact this
    | succ m =>
      have := ih m (fun i hi hi2 => by simpa using h (i + 1) (by omega) (by simpa using hi2))
      have hle : (x :: xs).countP q ≤ xs.countP q + 1 := by
        rw [List.countP_cons]; split <;> omega
      omega

theorem sorted_getD_le {L : List Int} (hs : L.Sorted (· ≤ ·)) {i j : Nat} (hij : i ≤ j)
    (hj : j < L.length) : L.getD i 0 ≤ L.getD j 0 := by
  have hi : i < L.length := by omega
  have := hs.rel_get_of_le (a := ⟨i, hi⟩) (b := ⟨j, hj⟩) hij
  simpa [List.getD, List.getElem?_eq_getElem hi, List.getElem?_eq_getElem hj] using this

/-- A cell that splits the array holds the order statistic of its own rank. -/
theorem sorted_rd_of_sep (S A : List Int) (t : Int) (h0 : 0 ≤ t) (ht : t < A.length)
    (hcnt : ∀ x, A.count x = S.count x) (h1 : Sep A t) (h2 : Sep A (t + 1)) :
    rd (sorted S) t = some (getI A t) := by
  have hAS : A.Perm S := List.perm_iff_count.2 hcnt
  have hLS : (sorted S).Perm S := List.perm_insertionSort _ S
  have hLA : (sorted S).Perm A := hLS.trans hAS.symm
  have hsorted : (sorted S).Sorted (· ≤ ·) := List.sorted_insertionSort _ S
  have hlen : (sorted S).length = A.length := hLA.length_eq
  have htn : t.toNat < A.length := by omega
  have hgA : ∀ i : Nat, A.getD i 0 = getI A (i : Int) := fun i => by simp [getI]
  have hgt : getI A t = A.getD t.toNat 0 := rfl
  rw [rd_eq h0 (by omega)]
  have hgL : getI (sorted S) t = (sorted S).getD t.toNat 0 := rfl
  have ha : A.countP (fun x => decide (x < getI A t)) ≤ t.toNat := by
    apply countP_le_of_tail
    intro i hi hi2
    by_cases hit : i = t.toNat
    · subst hit; rw [← hgt]; simp
    · have := h2 t i h0 (by omega) (by omega) (by omega)
      rw [hgA i]; simpa using this
  have hb : t.toNat + 1 ≤ A.countP (fun x => decide (x ≤ getI A t)) := by
    apply countP_ge_of_head _ _ _ (by omega)
    intro i hi
    by_cases hit : i = t.toNat
    · subst hit; rw [← hgt]; simp
    · have := h1 i t (by omega) (by omega) (le_refl _) ht
      rw [hgA i]; simpa using this
  have hc : ¬ (getI (sorted S) t < getI A t) := by
    intro hlt
    have : t.toNat + 1 ≤ (sorted S).countP (fun x => decide (x < getI A t)) := by
      apply countP_ge_of_head _ _ _ (by omega)
      intro i hi
      have := sorted_getD_le hsorted (show i ≤ t.toNat by omega) (by omega)
      rw [← hgL] at this
      simp only [decide_eq_true_eq]; omega
    rw [hLA.countP_eq] at this
    omega
  have hd : ¬ (getI A t < getI (sorted S) t) := by
    intro hlt
    have : (sorted S).countP (fun x => decide (x ≤ getI A t)) ≤ t.toNat := by
      apply countP_le_of_tail
      intro i hi hi2
      have := sorted_getD_le hsorted hi hi2
      rw [← hgL] at this
      simp only [decide_eq_false_iff_not]; omega
    rw [hLA.countP_eq] at this
    omega
  congr 1
  omega


theorem quickselect_kth (rnd : Nat → Nat) (S : List Int) (n k : Int)
    (hn : n = S.length) (hk1 : 1 ≤ k) (hkn : k ≤ n) :
    ∃ A1 v, quickselect rnd S n k = some (A1, v) ∧ rd (sorted S) (k - 1) = some v ∧
      A1.length = S.length ∧ A1.Perm S := by
  obtain ⟨A1, hrun, hlen, hcnt, s1, s2⟩ := quickselect_spec rnd S n k hn hk1 hkn
  refine ⟨A1, getI A1 (k - 1), hrun, ?_, hlen, List.perm_iff_count.2 hcnt⟩
  exact sorted_rd_of_sep S A1 (k - 1) (by omega) (by omega) hcnt s1 (by simpa using s2)

/-! ## `naive` -/

theorem getI_mem {A : List Int} {i : Int} (h0 : 0 ≤ i) (h1 : i < A.length) :
    getI A i ∈ A := by
  have h : i.toNat < A.length := by omega
  have : getI A i = A[i.toNat] := by simp [getI, List.getD, h]
  rw [this]
  exact List.getElem_mem h

theorem exists_getI_of_mem {A : List Int} {x : Int} (hx : x ∈ A) :
    ∃ i : Int, 0 ≤ i ∧ i < A.length ∧ getI A i = x := by
  obtain ⟨m, hm, hmx⟩ := List.mem_iff_getElem.1 hx
  refine ⟨(m : Int), by omega, by omega, ?_⟩
  simp [getI, List.getD, hm, hmx]

theorem naiveWhile_mem :
    ∀ (k : Nat) (list : List Int) (n last : Int) (lasti : Option Int) (A1 : List Int)
      (v : Int), naiveWhile k list n last lasti = some (A1, v) → A1 = list := by
  intro k
  induction k with
  | zero =>
    intro list n last lasti A1 v h
    simp only [naiveWhile, Option.some.injEq, Prod.mk.injEq] at h
    exact h.1.symm
  | succ k ih =>
    intro list n last lasti A1 v h
    simp only [naiveWhile] at h
    split at h
    · exact absurd h (by simp)
    · exact ih _ _ _ _ _ _ h

theorem naiveCond_some (x min last : Int) (lasti : Option Int) (i : Int)
    (hsafe : lasti.isSome = true ∨ x ≠ last) :
    ∃ b, naiveCond x min last lasti i = some b := by
  unfold naiveCond
  split
  · split
    · exact ⟨true, rfl⟩
    · split
      · rcases hsafe with h | h
        · cases lasti with
          | none => simp at h
          | some li => exact ⟨decide (li < i), rfl⟩
        · contradiction
      · exact ⟨false, rfl⟩
  · exact ⟨false, rfl⟩

theorem naiveFor_total (list : List Int) (n last : Int) (lasti : Option Int)
    (hn : n = list.length) (hsafe : lasti.isSome = true ∨ ∀ x ∈ list, x ≠ last) :
    ∀ (fuel : Nat) (i min mini : Int), 0 ≤ i → (n - i).toNat < fuel →
      ∃ r, naiveFor fuel list n last lasti i min mini = some r := by
  intro fuel
  induction fuel with
  | zero => intro i min mini _ hf; omega
  | succ f ih =>
    intro i min mini hi hf
    by_cases hlt : i < n
    · have hrd : rd list i = some (getI list i) := rd_eq hi (by omega)
      obtain ⟨b, hb⟩ := naiveCond_some (getI list i) min last lasti i
        (hsafe.imp id (fun h => h _ (getI_mem hi (by omega))))
      cases b with
      | true =>
        obtain ⟨r, hr⟩ := ih (i + 1) (getI list i) i (by omega) (by omega)
        exact ⟨r, by simp [naiveFor, hlt, hrd, hb, hr]⟩
      | false =>
        obtain ⟨r, hr⟩ := ih (i + 1) min mini (by omega) (by omega)
        exact ⟨r, by simp [naiveFor, hlt, hrd, hb, hr]⟩
    · exact ⟨(min, mini), by simp [naiveFor, hlt]⟩

theorem naiveWhile_total (list : List Int) (n : Int) (hn : n = list.length) (h1 : 1 ≤ n) :
    ∀ (k : Nat) (last : Int) (lasti : Option Int),
      (lasti.isSome = true ∨ ∀ x ∈ list, x ≠ last) →
      ∃ v, naiveWhile k list n last lasti = some (list, v) := by
  intro k
  induction k with
  | zero => intro last lasti _; exact ⟨last, rfl⟩
  | succ k ih =>
    intro last lasti hsafe
    have hrd : rd list 0 = some (getI list 0) := rd_eq (le_refl _) (by omega)
    obtain ⟨⟨m, mi⟩, hr⟩ := naiveFor_total list n last lasti hn hsafe (n.toNat + 1) 1
      (getI list 0) 0 (by omega) (by omega)
    obtain ⟨v, hv⟩ := ih m (some mi) (Or.inl rfl)
    exact ⟨v, by simp [naiveWhile, naiveIter, hrd, hr, hv]⟩

/-- The first scan (`last = -1`, `lasti` not yet written) over non-negative
values computes the running minimum. -/
theorem naiveFor_first (list : List Int) (n : Int) (hn : n = list.length)
    (hnn : ∀ x ∈ list, 0 ≤ x) :
    ∀ (fuel : Nat) (i min mini : Int), 0 ≤ i → (n - i).toNat < fuel →
      ∃ m mi, naiveFor fuel list n (-1) none i min mini = some (m, mi) ∧ m ≤ min ∧
        (∀ j, i ≤ j → j < n → m ≤ getI list j) ∧
        (m = min ∨ ∃ j, i ≤ j ∧ j < n ∧ m = getI list j) := by
  intro fuel
  induction fuel with
  | zero => intro i min mini _ hf; omega
  | succ f ih =>
    intro i min mini hi hf
    by_cases hlt : i < n
    · have hrd : rd list i = some (getI list i) := rd_eq hi (by omega)
      have hx : 0 ≤ getI list i := hnn _ (getI_mem hi (by omega))
      have hx1 : getI list i > -1 := by omega
      by_cases hc : getI list i < min
      · have hcond : naiveCond (getI list i) min (-1) none i = some true := by
          simp [naiveCond, hc, hx1]
        obtain ⟨m, mi, hr, ha, hb, hd⟩ := ih (i + 1) (getI list i) i (by omega) (by omega)
        refine ⟨m, mi, by simp [naiveFor, hlt, hrd, hcond, hr], by omega, ?_, ?_⟩
        · intro j hj1 hj2
          by_cases hji : j = i
          · subst hji; exact ha
          · exact hb j (by omega) hj2
        · right
          rcases hd with hd | ⟨j, hj1, hj2, hj3⟩
          · exact ⟨i, le_refl _, hlt, hd⟩
          · exact ⟨j, by omega, hj2, hj3⟩
      · have hcond : naiveCond (getI list i) min (-1) none i = some false := by
          simp [naiveCond, hc]
        obtain ⟨m, mi, hr, ha, hb, hd⟩ := ih (i + 1) min mini (by omega) (by omega)
        refine ⟨m, mi, by simp [naiveFor, hlt, hrd, hcond, hr], ha, ?_, ?_⟩
        · intro j hj1 hj2
          by_cases hji : j = i
          · subst hji; omega
          · exact hb j (by omega) hj2
        · rcases hd with hd | ⟨j, hj1, hj2, hj3⟩
          · exact Or.inl hd
          · exact Or.inr ⟨j, by omega, hj2, hj3⟩
    · refine ⟨min, mini, by simp [naiveFor, hlt], le_refl _, ?_, Or.inl rfl⟩
      intro j hj1 hj2; omega


/-! ## Claims -/

/-- C1: for `0 ≤ left ≤ pivot ≤ right < n`, `partition` returns an index `r` with
`left ≤ r ≤ right` such that in the resulting array every cell of `left .. r` is at
most the cell at `r` and every cell of `r+1 .. right` is greater than it. -/
theorem partition_postcondition (A : List Int) (left right pivot : Int) (h0 : 0 ≤ left)
    (h1 : left ≤ pivot) (h2 : pivot ≤ right) (h3 : right < A.length) :
    ∃ A1 r vr, partition A left right pivot = some (A1, r) ∧ left ≤ r ∧ r ≤ right ∧
      rd A1 r = some vr ∧
      (∀ i, left ≤ i → i ≤ r → ∃ v, rd A1 i = some v ∧ v ≤ vr) ∧
      (∀ i, r < i → i ≤ right → ∃ v, rd A1 i = some v ∧ v > vr) := by
  obtain ⟨A1, r, hrun, hlen, ha, hb, hc, hd, he, _, _, _⟩ :=
    partition_spec A left right pivot h0 h1 h2 h3
  refine ⟨A1, r, getI A1 r, hrun, ha, hb, rd_eq (by omega) (by omega), ?_, ?_⟩
  · intro i hi1 hi2
    exact ⟨getI A1 i, rd_eq (by omega) (by omega), by rw [hc]; exact hd i hi1 hi2⟩
  · intro i hi1 hi2
    exact ⟨getI A1 i, rd_eq (by omega) (by omega), by rw [hc]; exact he i hi1 hi2⟩

theorem partition_postcondition_witness :
    ∃ A1 r vr, partition [5, 3, 8, 3, 1] 0 4 2 = some (A1, r) ∧ (0 : Int) ≤ r ∧ r ≤ 4 ∧
      rd A1 r = some vr ∧
      (∀ i, 0 ≤ i → i ≤ r → ∃ v, rd A1 i = some v ∧ v ≤ vr) ∧
      (∀ i, r < i → i ≤ 4 → ∃ v, rd A1 i = some v ∧ v > vr) :=
  partition_postcondition [5, 3, 8, 3, 1] 0 4 2 (by decide) (by decide) (by decide)
    (by decide)

/-- C2: for a non-empty array `S` of `n` integers, `1 ≤ k ≤ n` and any values
returned by `random()` (every pivot the code derives from them lies in the active
range), `quickselect` returns `sorted(S)[k-1]`. -/
theorem quickselect_correct (rnd : Nat → Nat) (S : List Int) (n k : Int)
    (hn : n = S.length) (hk1 : 1 ≤ k) (hkn : k ≤ n) :
    ∃ A1 v, quickselect rnd S n k = some (A1, v) ∧ rd (sorted S) (k - 1) = some v := by
  obtain ⟨A1, v, hrun, hv, _, _⟩ := quickselect_kth rnd S n k hn hk1 hkn
  exact ⟨A1, v, hrun, hv⟩

theorem quickselect_correct_witness :
    ∃ A1 v, quickselect (fun c => 7 * c + 3) [4, -2, 9, 4, 0, 7] 6 4 = some (A1, v) ∧
      rd (sorted [4, -2, 9, 4, 0, 7]) (4 - 1) = some v :=
  quickselect_correct (fun c => 7 * c + 3) [4, -2, 9, 4, 0, 7] 6 4 (by decide) (by decide)
    (by decide)

/-- C3 (code defect): on `S = [1, 2]`, `n = 2`, `k = 2` the function `naive` returns
`1`, while `sorted(S)[k-1]` is `2`: each scan restarts from `list[0]` as a candidate
that is never excluded. -/
theorem naive_not_kth : naive [1, 2] 2 2 = some ([1, 2], 1) ∧
    rd (sorted [1, 2]) (2 - 1) = some 2 := by
  decide

/-- C4 (code defect): on the driver input `S = [0, 1, 2]`, `n = 3`, `k = 2` the
function `naive` returns `0` and `quickselect` returns `1` whatever `random()`
yields, so the mismatch check of the driver fires. -/
theorem naive_quickselect_mismatch : naive [0, 1, 2] 3 2 = some ([0, 1, 2], 0) ∧
    ∀ rnd : Nat → Nat, ∃ A1, quickselect rnd [0, 1, 2] 3 2 = some (A1, 1) := by
  refine ⟨by decide, fun rnd => ?_⟩
  obtain ⟨A1, v, hrun, hv, _, _⟩ :=
    quickselect_kth rnd [0, 1, 2] 3 2 (by decide) (by decide) (by decide)
  have h1 : rd (sorted [0, 1, 2]) (2 - 1) = some 1 := by decide
  rw [h1] at hv
  cases hv
  exact ⟨A1, hrun⟩

/-- C5: for `0 ≤ left ≤ pivot ≤ right < n`, the multiset of values of the array
after `partition` equals the multiset of values before the call. -/
theorem partition_multiset (A : List Int) (left right pivot : Int) (h0 : 0 ≤ left)
    (h1 : left ≤ pivot) (h2 : pivot ≤ right) (h3 : right < A.length) :
    ∃ A1 r, partition A left right pivot = some (A1, r) ∧
      (A1 : Multiset Int) = (A : Multiset Int) := by
  obtain ⟨A1, r, hrun, _, _, _, _, _, _, hcnt, _, _⟩ :=
    partition_spec A left right pivot h0 h1 h2 h3
  exact ⟨A1, r, hrun, Multiset.coe_eq_coe.2 (List.perm_iff_count.2 hcnt)⟩

theorem partition_multiset_witness :
    ∃ A1 r, partition [5, 3, 8, 3, 1] 1 3 2 = some (A1, r) ∧
      (A1 : Multiset Int) = (([5, 3, 8, 3, 1] : List Int) : Multiset Int) :=
  partition_multiset [5, 3, 8, 3, 1] 1 3 2 (by decide) (by decide) (by decide) (by decide)

/-- C6: for a non-empty array `S` of `n` integers, `1 ≤ k ≤ n` and any values
returned by `random()`, the array left behind by `quickselect` is a permutation of
`S`: same length, same multiset of values. -/
theorem quickselect_permutation (rnd : Nat → Nat) (S : List Int) (n k : Int)
    (hn : n = S.length) (hk1 : 1 ≤ k) (hkn : k ≤ n) :
    ∃ A1 v, quickselect rnd S n k = some (A1, v) ∧ A1.length = S.length ∧
      (A1 : Multiset Int) = (S : Multiset Int) := by
  obtain ⟨A1, v, hrun, _, hlen, hperm⟩ := quickselect_kth rnd S n k hn hk1 hkn
  exact ⟨A1, v, hrun, hlen, Multiset.coe_eq_coe.2 hperm⟩

theorem quickselect_permutation_witness :
    ∃ A1 v, quickselect (fun c => c + 2) [5, 3, 8, 3, 1] 5 5 = some (A1, v) ∧
      A1.length = ([5, 3, 8, 3, 1] : List Int).length ∧
      (A1 : Multiset Int) = (([5, 3, 8, 3, 1] : List Int) : Multiset Int) :=
  quickselect_permutation (fun c => c + 2) [5, 3, 8, 3, 1] 5 5 (by decide) (by decide)
    (by decide)

/-- C7: for `0 ≤ left ≤ pivot ≤ right < n`, if `p` is the value of `A[pivot]` before
`partition` and `r` the returned index, then `A[r] = p` after the call. -/
theorem partition_pivot_value (A : List Int) (left right pivot : Int) (h0 : 0 ≤ left)
    (h1 : left ≤ pivot) (h2 : pivot ≤ right) (h3 : right < A.length) :
    ∃ A1 r p, rd A pivot = some p ∧ partition A left right pivot = some (A1, r) ∧
      rd A1 r = some p := by
  obtain ⟨A1, r, hrun, hlen, ha, hb, hc, _, _, _, _, _⟩ :=
    partition_spec A left right pivot h0 h1 h2 h3
  refine ⟨A1, r, getI A pivot, rd_eq (by omega) (by omega), hrun, ?_⟩
  rw [← hc]
  exact rd_eq (by omega) (by omega)

theorem partition_pivot_value_witness :
    ∃ A1 r p, rd [2, 7, 1, 8, 2, 8] 4 = some p ∧
      partition [2, 7, 1, 8, 2, 8] 0 5 4 = some (A1, r) ∧ rd A1 r = some p :=
  partition_pivot_value [2, 7, 1, 8, 2, 8] 0 5 4 (by decide) (by decide) (by decide)
    (by decide)

/-- C8, as stated, fails: on the signed input `S = [0, -5]` the call
`naive(S, 2, 1)` returns `0`, although `-5` is a smaller element of `S`. -/
theorem naive_min_signed_counterexample :
    naive [0, -5] 2 1 = some ([0, -5], 0) ∧ (-5 : Int) ∈ [(0 : Int), -5] ∧
      (-5 : Int) < 0 := by
  decide

/-- C8, amended: for every non-empty sequence `S` of non-negative integers,
`naive(S, n, 1)` returns the minimum value of `S`. -/
theorem naive_min_nonneg (S : List Int) (n : Int) (hn : n = S.length) (h1 : 1 ≤ n)
    (hnn : ∀ x ∈ S, 0 ≤ x) :
    ∃ m, naive S n 1 = some (S, m) ∧ m ∈ S ∧ ∀ x ∈ S, m ≤ x := by
  have hrd : rd S 0 = some (getI S 0) := rd_eq (le_refl _) (by omega)
  obtain ⟨m, mi, hr, ha, hb, hd⟩ :=
    naiveFor_first S n hn hnn (n.toNat + 1) 1 (getI S 0) 0 (by omega) (by omega)
  refine ⟨m, ?_, ?_, ?_⟩
  · have hk : (1 : Int).toNat = 0 + 1 := rfl
    simp [naive, hk, naiveWhile, naiveIter, hrd, hr]
  · rcases hd with hd | ⟨j, hj1, hj2, hj3⟩
    · rw [hd]; exact getI_mem (le_refl _) (by omega)
    · rw [hj3]; exact getI_mem (by omega) (by omega)
  · intro x hx
    obtain ⟨i, hi0, hi1, hix⟩ := exists_getI_of_mem hx
    rw [← hix]
    by_cases hi : i = 0
    · subst hi; exact ha
    · exact hb i (by omega) (by omega)

theorem naive_min_nonneg_witness :
    ∃ m, naive [5, 3, 8, 3, 1] 5 1 = some ([5, 3, 8, 3, 1], m) ∧ m ∈ [(5 : Int), 3, 8, 3, 1] ∧
      ∀ x ∈ [(5 : Int), 3, 8, 3, 1], m ≤ x :=
  naive_min_nonneg [5, 3, 8, 3, 1] 5 (by decide) (by decide) (by decide)

/-- C9: on `S = [5, 3, 8, 3, 1]`, `n = 5`, `k = 3`, `naive` returns `3`, and
`quickselect` returns `3` whatever `random()` yields. -/
theorem example_duplicates : naive [5, 3, 8, 3, 1] 5 3 = some ([5, 3, 8, 3, 1], 3) ∧
    ∀ rnd : Nat → Nat, ∃ A1, quickselect rnd [5, 3, 8, 3, 1] 5 3 = some (A1, 3) := by
  refine ⟨by decide, fun rnd => ?_⟩
  obtain ⟨A1, v, hrun, hv, _, _⟩ :=
    quickselect_kth rnd [5, 3, 8, 3, 1] 5 3 (by decide) (by decide) (by decide)
  have h1 : rd (sorted [5, 3, 8, 3, 1]) (3 - 1) = some 3 := by decide
  rw [h1] at hv
  cases hv
  exact ⟨A1, hrun⟩

/-- C10: for a sequence `S` of `n ≥ 1` integers and `k ≥ 0`, whenever `naive`
returns, the array it leaves is `S` itself; and it does return, with the array
`S`, whenever no element of `S` equals the initial `last = -1` (so that the
uninitialised `lasti` is never read). -/
theorem naive_frame (S : List Int) (n k : Int) (hn : n = S.length) (h1 : 1 ≤ n)
    (hk : 0 ≤ k) :
    (∀ A1 v, naive S n k = some (A1, v) → A1 = S) ∧
      ((∀ x ∈ S, x ≠ -1) → ∃ v, naive S n k = some (S, v)) := by
  have hk2 : ¬ (k < 0) := by omega
  refine ⟨?_, ?_⟩
  · intro A1 v h
    simp only [naive, hk2, if_false] at h
    exact naiveWhile_mem _ _ _ _ _ _ _ h
  · intro hs
    obtain ⟨v, hv⟩ := naiveWhile_total S n hn h1 k.toNat (-1) none (Or.inr hs)
    exact ⟨v, by simp [naive, hk2, hv]⟩

theorem naive_frame_witness :
    (∀ A1 v, naive [5, 3, 8, 3, 1] 5 4 = some (A1, v) → A1 = [5, 3, 8, 3, 1]) ∧
      ((∀ x ∈ [(5 : Int), 3, 8, 3, 1], x ≠ -1) →
        ∃ v, naive [5, 3, 8, 3, 1] 5 4 = some ([5, 3, 8, 3, 1], v)) :=
  naive_frame [5, 3, 8, 3, 1] 5 4 (by decide) (by decide) (by decide)

theorem rd_none_of_lt {A : List Int} {i : Int} (h : i < 0) : rd A i = none := by
  have h0 : ¬ (0 ≤ i) := by omega
  simp [rd, h0]

theorem rd_none_of_ge {A : List Int} {i : Int} (h : (A.length : Int) ≤ i) :
    rd A i = none := by
  have h0 : 0 ≤ i := by omega
  have h1 : A.length ≤ i.toNat := by omega
  simp [rd, h0, List.getElem?_eq_none h1]

theorem rd_some_iff {A : List Int} {i x : Int} (h : rd A i = some x) :
    0 ≤ i ∧ i < A.length ∧ x = getI A i := by
  by_cases h0 : i < 0
  · rw [rd_none_of_lt h0] at h; cases h
  · by_cases h1 : (A.length : Int) ≤ i
    · rw [rd_none_of_ge h1] at h; cases h
    · rw [rd_eq (by omega) (by omega)] at h
      cases h
      exact ⟨by omega, by omega, rfl⟩

/-- C11: on a single-element sequence `[x]` with `n = 1`, `k = 1`, both `naive`
and `quickselect` (whatever `random()` yields) return `x` and leave `[x]`; in
particular `[9]` gives `9`. -/
theorem single_element (x : Int) :
    naive [x] 1 1 = some ([x], x) ∧
      (∀ rnd : Nat → Nat, quickselect rnd [x] 1 1 = some ([x], x)) ∧
      naive [9] 1 1 = some ([9], 9) ∧
      (∀ rnd : Nat → Nat, quickselect rnd [9] 1 1 = some ([9], 9)) := by
  have hq : ∀ (y : Int) (rnd : Nat → Nat), quickselect rnd [y] 1 1 = some ([y], y) := by
    intro y rnd
    obtain ⟨A1, v, hrun, hv, _, hperm⟩ :=
      quickselect_kth rnd [y] 1 1 (by simp) (le_refl _) (le_refl _)
    have hA : A1 = [y] := List.perm_singleton.1 hperm
    have hs : rd (sorted [y]) (1 - 1) = some y := by simp [sorted, rd]
    rw [hs] at hv
    cases hv
    rw [hrun, hA]
  have hnv : ∀ y : Int, naive [y] 1 1 = some ([y], y) := by
    intro y
    have hk : (1 : Int).toNat = 0 + 1 := rfl
    simp [naive, hk, naiveWhile, naiveIter, naiveFor, rd]
  exact ⟨hnv x, hq x, hnv 9, hq 9⟩

/-- C15: for `0 ≤ left ≤ pivot ≤ right < n`, `partition` keeps the length of the
array and leaves every cell at an index outside `left .. right` unchanged. -/
theorem partition_frame (A : List Int) (left right pivot : Int) (h0 : 0 ≤ left)
    (h1 : left ≤ pivot) (h2 : pivot ≤ right) (h3 : right < A.length) :
    ∃ A1 r, partition A left right pivot = some (A1, r) ∧ A1.length = A.length ∧
      ∀ i, (i < left ∨ right < i) → rd A1 i = rd A i := by
  obtain ⟨A1, r, hrun, hlen, _, _, _, _, _, _, hfr, _⟩ :=
    partition_spec A left right pivot h0 h1 h2 h3
  refine ⟨A1, r, hrun, hlen, ?_⟩
  intro i hi
  by_cases hneg : i < 0
  · rw [rd_none_of_lt hneg, rd_none_of_lt hneg]
  · by_cases hbig : (A.length : Int) ≤ i
    · rw [rd_none_of_ge hbig, rd_none_of_ge (by omega)]
    · rw [rd_eq (by omega) (by omega), rd_eq (by omega) (by omega), hfr i (by omega) hi]

theorem partition_frame_witness :
    ∃ A1 r, partition [5, 3, 8, 3, 1, 7] 1 3 2 = some (A1, r) ∧
      A1.length = ([5, 3, 8, 3, 1, 7] : List Int).length ∧
      ∀ i, (i < 1 ∨ 3 < i) → rd A1 i = rd [5, 3, 8, 3, 1, 7] i :=
  partition_frame [5, 3, 8, 3, 1, 7] 1 3 2 (by decide) (by decide) (by decide) (by decide)

/-- C16: for a non-empty array `S` of `n` integers, `1 ≤ k ≤ n` and any values
returned by `random()`, when `quickselect` returns `v` the array holds `v` at
index `k-1`, every cell below `k-1` is at most `v` and every cell above is at
least `v`. -/
theorem quickselect_split (rnd : Nat → Nat) (S : List Int) (n k : Int)
    (hn : n = S.length) (hk1 : 1 ≤ k) (hkn : k ≤ n) :
    ∃ A1 v, quickselect rnd S n k = some (A1, v) ∧ rd A1 (k - 1) = some v ∧
      (∀ i x, i < k - 1 → rd A1 i = some x → x ≤ v) ∧
      (∀ i x, k - 1 < i → rd A1 i = some x → v ≤ x) := by
  obtain ⟨A1, hrun, hlen, _, s1, s2⟩ := quickselect_spec rnd S n k hn hk1 hkn
  refine ⟨A1, getI A1 (k - 1), hrun, rd_eq (by omega) (by omega), ?_, ?_⟩
  · intro i x hi hx
    obtain ⟨hi0, hi1, hxe⟩ := rd_some_iff hx
    rw [hxe]
    exact s1 i (k - 1) hi0 hi (le_refl _) (by omega)
  · intro i x hi hx
    obtain ⟨hi0, hi1, hxe⟩ := rd_some_iff hx
    rw [hxe]
    exact s2 (k - 1) i (by omega) (by omega) (by omega) hi1

theorem quickselect_split_witness :
    ∃ A1 v, quickselect (fun c => 5 * c + 1) [4, -2, 9, 4, 0, 7] 6 2 = some (A1, v) ∧
      rd A1 (2 - 1) = some v ∧
      (∀ i x, i < 2 - 1 → rd A1 i = some x → x ≤ v) ∧
      (∀ i x, 2 - 1 < i → rd A1 i = some x → v ≤ x) :=
  quickselect_split (fun c => 5 * c + 1) [4, -2, 9, 4, 0, 7] 6 2 (by decide) (by decide)
    (by decide)

/-! ## The active range of `quickselect` -/

theorem qsLoopLog_fst :
    ∀ (fuel : Nat) (rnd : Nat → Nat) (c : Nat) (A : List Int) (left right pivot t : Int),
      (qsLoopLog fuel rnd c A left right pivot t).map Prod.fst
        = qsLoop fuel rnd c A left right pivot t := by
  intro fuel
  induction fuel with
  | zero => intro rnd c A left right pivot t; rfl
  | succ f ih =>
    intro rnd c A left right pivot t
    simp only [qsLoopLog, qsLoop]
    split
    · cases hb : qsBody (rnd c) A left right t with
      | none => rfl
      | some x =>
        obtain ⟨list1, left1, right1, pivot1⟩ := x
        simp only
        rw [← ih rnd (c + 1) list1 left1 right1 pivot1 t]
        cases qsLoopLog f rnd (c + 1) list1 left1 right1 pivot1 t with
        | none => rfl
        | some y => rfl
    · rfl

theorem qsLoopLog_spec (rnd : Nat → Nat) (t : Int) :
    ∀ (fuel c : Nat) (A : List Int) (left right pivot : Int),
      ((pivot = t ∧ Sep A t ∧ Sep A (t + 1) ∧ 0 < fuel) ∨
        (pivot ≠ t ∧ 0 ≤ left ∧ left ≤ t ∧ t ≤ right ∧ right < A.length ∧
          Sep A left ∧ Sep A (right + 1) ∧ (right - left).toNat + 1 < fuel)) →
      ∃ A1 tr, qsLoopLog fuel rnd c A left right pivot t = some (A1, tr) ∧
        (pivot = t → tr = []) ∧
        (pivot ≠ t → ∃ tr1, tr = (left, right) :: tr1 ∧
          List.Chain (fun a b : Int × Int => b.2 - b.1 < a.2 - a.1) (left, right) tr1 ∧
          tr.length ≤ (right - left).toNat + 1 ∧
          ∀ s ∈ tr, 0 ≤ s.1 ∧ s.1 ≤ t ∧ t ≤ s.2 ∧ s.2 < A.length) := by
  intro fuel
  induction fuel with
  | zero => intro c A left right pivot h; omega
  | succ f ih =>
    intro c A left right pivot h
    rcases h with ⟨hp, s1, s2, _⟩ | ⟨hp, h0, hlt, htr, hright, s1, s2, hf⟩
    · exact ⟨A, [], by simp [qsLoopLog, hp], fun _ => rfl, fun h => absurd hp h⟩
    · obtain ⟨A1, left1, right1, pivot1, hrun, hlen, _, _, _, hhit, hmiss⟩ :=
        qsBody_spec (rnd c) A left right t h0 hlt htr hright s1 s2
      by_cases hp1 : pivot1 = t
      · obtain ⟨A2, tr, hrun2, htr0, _⟩ := ih (c + 1) A1 left1 right1 pivot1
          (Or.inl ⟨hp1, (hhit hp1).1, (hhit hp1).2, by omega⟩)
        have htr1 : tr = [] := htr0 hp1
        subst htr1
        refine ⟨A2, [(left, right)], by simp [qsLoopLog, hp, hrun, hrun2],
          fun h => absurd h hp, fun _ => ⟨[], rfl, List.Chain.nil, by simp, ?_⟩⟩
        intro s hs
        simp only [List.mem_singleton] at hs
        subst hs
        exact ⟨h0, hlt, htr, hright⟩
      · obtain ⟨a, b, c1, d, e, g, hdec⟩ := hmiss hp1
        obtain ⟨A2, tr, hrun2, _, htr2⟩ := ih (c + 1) A1 left1 right1 pivot1
          (Or.inr ⟨hp1, a, b, c1, d, e, g, by omega⟩)
        obtain ⟨tr1, htreq, hchain, hlen2, hmem⟩ := htr2 hp1
        refine ⟨A2, (left, right) :: tr, by simp [qsLoopLog, hp, hrun, hrun2],
          fun h => absurd h hp, fun _ => ⟨tr, rfl, ?_, ?_, ?_⟩⟩
        · rw [htreq]
          exact List.Chain.cons hdec hchain
        · simp only [List.length_cons]; omega
        · intro s hs
          rcases List.mem_cons.1 hs with hs | hs
          · subst hs; exact ⟨h0, hlt, htr, hright⟩
          · obtain ⟨x1, x2, x3, x4⟩ := hmem s hs
            exact ⟨x1, x2, x3, by omega⟩

/-- C12: for a non-empty array of `n` integers, `1 ≤ k ≤ n` and any values returned
by `random()`, the loop of `quickselect` returns; every `partition` call is made
with `0 ≤ left ≤ k-1 ≤ right ≤ n-1`; from one call to the next `right - left`
strictly decreases; and at most `n` calls (iterations) are made. -/
theorem quickselect_loop_bounds (rnd : Nat → Nat) (S : List Int) (n k : Int)
    (hn : n = S.length) (hk1 : 1 ≤ k) (hkn : k ≤ n) :
    ∃ A1 tr, qsLoopLog (n.toNat + 1) rnd 0 S 0 (n - 1) (-1) (k - 1) = some (A1, tr) ∧
      qsLoop (n.toNat + 1) rnd 0 S 0 (n - 1) (-1) (k - 1) = some A1 ∧
      (∀ s ∈ tr, 0 ≤ s.1 ∧ s.1 ≤ k - 1 ∧ k - 1 ≤ s.2 ∧ s.2 ≤ n - 1) ∧
      tr.Chain' (fun a b : Int × Int => b.2 - b.1 < a.2 - a.1) ∧
      (tr.length : Int) ≤ n := by
  have hne : (-1 : Int) ≠ k - 1 := by omega
  obtain ⟨A1, tr, hrun, _, h⟩ :=
    qsLoopLog_spec rnd (k - 1) (n.toNat + 1) 0 S 0 (n - 1) (-1)
      (Or.inr ⟨hne, le_refl _, by omega, by omega, by omega,
        fun i j hi0 hi _ _ => by omega, fun i j _ _ hj1 hj2 => by omega, by omega⟩)
  obtain ⟨tr1, htreq, hchain, hlen, hmem⟩ := h hne
  refine ⟨A1, tr, hrun, ?_, ?_, ?_, by omega⟩
  · rw [← qsLoopLog_fst, hrun]; rfl
  · intro s hs
    obtain ⟨x1, x2, x3, x4⟩ := hmem s hs
    exact ⟨x1, x2, x3, by omega⟩
  · rw [htreq]; exact hchain

theorem quickselect_loop_bounds_witness :
    ∃ A1 tr, qsLoopLog ((6 : Int).toNat + 1) (fun c => 5 * c + 1) 0 [4, -2, 9, 4, 0, 7] 0
        (6 - 1) (-1) (2 - 1) = some (A1, tr) ∧
      qsLoop ((6 : Int).toNat + 1) (fun c => 5 * c + 1) 0 [4, -2, 9, 4, 0, 7] 0 (6 - 1) (-1)
        (2 - 1) = some A1 ∧
      (∀ s ∈ tr, 0 ≤ s.1 ∧ s.1 ≤ 2 - 1 ∧ 2 - 1 ≤ s.2 ∧ s.2 ≤ 6 - 1) ∧
      tr.Chain' (fun a b : Int × Int => b.2 - b.1 < a.2 - a.1) ∧
      (tr.length : Int) ≤ 6 :=
  quickselect_loop_bounds (fun c => 5 * c + 1) [4, -2, 9, 4, 0, 7] 6 2 (by decide)
    (by decide) (by decide)

/-! ## The cells accessed by `partition` -/

theorem scanRLog_fst :
    ∀ (fuel : Nat) (A : List Int) (l p r : Int),
      (scanRLog fuel A l p r).map Prod.fst = scanR fuel A l p r := by
  intro fuel
  induction fuel with
  | zero => intro A l p r; rfl
  | succ f ih =>
    intro A l p r
    simp only [scanRLog, scanR]
    split
    · cases rd A r with
      | none => rfl
      | some v =>
        simp only
        split
        · rw [← ih A l p (r - 1)]
          cases scanRLog f A l p (r - 1) with
          | none => rfl
          | some y => rfl
        · rfl
    · rfl

theorem scanLLog_fst :
    ∀ (fuel : Nat) (A : List Int) (r p l : Int),
      (scanLLog fuel A r p l).map Prod.fst = scanL fuel A r p l := by
  intro fuel
  induction fuel with
  | zero => intro A r p l; rfl
  | succ f ih =>
    intro A r p l
    simp only [scanLLog, scanL]
    split
    · cases rd A l with
      | none => rfl
      | some v =>
        simp only
        split
        · rw [← ih A r p (l + 1)]
          cases scanLLog f A r p (l + 1) with
          | none => rfl
          | some y => rfl
        · rfl
    · rfl

theorem scanRLog_mem :
    ∀ (fuel : Nat) (A : List Int) (l p r r1 : Int) (log : List Int),
      scanRLog fuel A l p r = some (r1, log) → r1 ≤ r ∧ ∀ i ∈ log, l ≤ i ∧ i ≤ r := by
  intro fuel
  induction fuel with
  | zero => intro A l p r r1 log h; simp [scanRLog] at h
  | succ f ih =>
    intro A l p r r1 log h
    simp only [scanRLog] at h
    by_cases hge : r ≥ l
    · simp only [hge, if_true] at h
      cases hrd : rd A r with
      | none => simp [hrd] at h
      | some v =>
        simp only [hrd] at h
        by_cases hv : v > p
        · simp only [hv, if_true] at h
          cases hrec : scanRLog f A l p (r - 1) with
          | none => simp [hrec] at h
          | some y =>
            obtain ⟨r2, log2⟩ := y
            simp only [hrec, Option.some.injEq, Prod.mk.injEq] at h
            obtain ⟨h1, h2⟩ := h
            subst h1 h2
            obtain ⟨ha, hb⟩ := ih A l p (r - 1) _ _ hrec
            refine ⟨by omega, ?_⟩
            intro i hi
            rcases List.mem_cons.1 hi with hi | hi
            · subst hi; exact ⟨hge, le_refl _⟩
            · have := hb i hi; omega
        · simp only [hv, if_false, Option.some.injEq, Prod.mk.injEq] at h
          obtain ⟨h1, h2⟩ := h
          subst h1 h2
          refine ⟨le_refl _, ?_⟩
          intro i hi
          simp only [List.mem_singleton] at hi
          subst hi; exact ⟨hge, le_refl _⟩
    · simp only [hge, if_false, Option.some.injEq, Prod.mk.injEq] at h
      obtain ⟨h1, h2⟩ := h
      subst h1 h2
      exact ⟨le_refl _, fun i hi => by simp at hi⟩

theorem scanLLog_mem :
    ∀ (fuel : Nat) (A : List Int) (r p l l1 : Int) (log : List Int),
      scanLLog fuel A r p l = some (l1, log) → l ≤ l1 ∧ ∀ i ∈ log, l ≤ i ∧ i < r := by
  intro fuel
  induction fuel with
  | zero => intro A r p l l1 log h; simp [scanLLog] at h
  | succ f ih =>
    intro A r p l l1 log h
    simp only [scanLLog] at h
    by_cases hlt : l < r
    · simp only [hlt, if_true] at h
      cases hrd : rd A l with
      | none => simp [hrd] at h
      | some v =>
        simp only [hrd] at h
        by_cases hv : v ≤ p
        · simp only [hv, if_true] at h
          cases hrec : scanLLog f A r p (l + 1) with
          | none => simp [hrec] at h
          | some y =>
            obtain ⟨l2, log2⟩ := y
            simp only [hrec, Option.some.injEq, Prod.mk.injEq] at h
            obtain ⟨h1, h2⟩ := h
            subst h1 h2
            obtain ⟨ha, hb⟩ := ih A r p (l + 1) _ _ hrec
            refine ⟨by omega, ?_⟩
            intro i hi
            rcases List.mem_cons.1 hi with hi | hi
            · subst hi; exact ⟨le_refl _, hlt⟩
            · have := hb i hi; omega
        · simp only [hv, if_false, Option.some.injEq, Prod.mk.injEq] at h
          obtain ⟨h1, h2⟩ := h
          subst h1 h2
          refine ⟨le_refl _, ?_⟩
          intro i hi
          simp only [List.mem_singleton] at hi
          subst hi; exact ⟨le_refl _, hlt⟩
    · simp only [hlt, if_false, Option.some.injEq, Prod.mk.injEq] at h
      obtain ⟨h1, h2⟩ := h
      subst h1 h2
      exact ⟨le_refl _, fun i hi => by simp at hi⟩
theorem partLoopLog_fst :
    ∀ (fuel : Nat) (A : List Int) (l r p : Int),
      (partLoopLog fuel A l r p).map (fun x => (x.1, x.2.1)) = partLoop fuel A l r p := by
  intro fuel
  induction fuel with
  | zero => intro A l r p; rfl
  | succ f ih =>
    intro A l r p
    simp only [partLoopLog, partLoop]
    rw [← scanRLog_fst]
    cases scanRLog (A.length + 1) A l p r with
    | none => rfl
    | some y =>
      obtain ⟨r1, logR⟩ := y
      simp only [Option.map_some']
      rw [← scanLLog_fst]
      cases scanLLog (A.length + 1) A r1 p l with
      | none => rfl
      | some z =>
        obtain ⟨l1, logL⟩ := z
        simp only [Option.map_some']
        split
        · rfl
        · cases rd A l1 with
          | none => rfl
          | some swap =>
            cases rd A r1 with
            | none => rfl
            | some ar =>
              simp only
              cases wr A l1 ar with
              | none => rfl
              | some A1 =>
                simp only
                cases wr A1 r1 swap with
                | none => rfl
                | some A2 =>
                  simp only
                  rw [← ih A2 l1 r1 p]
                  cases partLoopLog f A2 l1 r1 p with
                  | none => rfl
                  | some w => rfl

theorem partLoopLog_mem :
    ∀ (fuel : Nat) (A : List Int) (l r p : Int) (A3 : List Int) (r3 : Int)
      (log : List Int),
      partLoopLog fuel A l r p = some (A3, r3, log) → ∀ i ∈ log, l ≤ i ∧ i ≤ r := by
  intro fuel
  induction fuel with
  | zero => intro A l r p A3 r3 log h; simp [partLoopLog] at h
  | succ f ih =>
    intro A l r p A3 r3 log h
    simp only [partLoopLog] at h
    cases hsr : scanRLog (A.length + 1) A l p r with
    | none => simp [hsr] at h
    | some y =>
      obtain ⟨r1, logR⟩ := y
      obtain ⟨hr1, hlogR⟩ := scanRLog_mem _ _ _ _ _ _ _ hsr
      simp only [hsr] at h
      cases hsl : scanLLog (A.length + 1) A r1 p l with
      | none => simp [hsl] at h
      | some z =>
        obtain ⟨l1, logL⟩ := z
        obtain ⟨hl1, hlogL⟩ := scanLLog_mem _ _ _ _ _ _ _ hsl
        simp only [hsl] at h
        have hscan : ∀ i ∈ logR ++ logL, l ≤ i ∧ i ≤ r := by
          intro i hi
          rcases List.mem_append.1 hi with hi | hi
          · exact hlogR i hi
          · have := hlogL i hi; omega
        by_cases hb : l1 ≥ r1
        · simp only [hb, if_true, Option.some.injEq, Prod.mk.injEq] at h
          obtain ⟨_, _, h3⟩ := h
          subst h3
          exact hscan
        · simp only [hb, if_false] at h
          cases hrl : rd A l1 with
          | none => simp [hrl] at h
          | some swap =>
            cases hrr : rd A r1 with
            | none => simp [hrl, hrr] at h
            | some ar =>
              simp only [hrl, hrr] at h
              cases hw1 : wr A l1 ar with
              | none => simp [hw1] at h
              | some A1 =>
                simp only [hw1] at h
                cases hw2 : wr A1 r1 swap with
                | none => simp [hw2] at h
                | some A2 =>
                  simp only [hw2] at h
                  cases hrec : partLoopLog f A2 l1 r1 p with
                  | none => simp [hrec] at h
                  | some w =>
                    obtain ⟨A4, r4, log4⟩ := w
                    simp only [hrec, Option.some.injEq, Prod.mk.injEq] at h
                    obtain ⟨_, _, h3⟩ := h
                    subst h3
                    have hrecmem := ih A2 l1 r1 p A4 r4 log4 hrec
                    intro i hi
                    rcases List.mem_append.1 hi with hi | hi
                    · rcases List.mem_append.1 hi with hi | hi
                      · exact hscan i hi
                      · simp only [List.mem_cons, List.mem_singleton, List.not_mem_nil,
                          or_false] at hi
                        rcases hi with hi | hi | hi | hi <;> subst hi <;> omega
                    · have := hrecmem i hi; omega

theorem partitionLog_fst (A : List Int) (left right pivot : Int) :
    (partitionLog A left right pivot).map (fun x => (x.1, x.2.1))
      = partition A left right pivot := by
  simp only [partitionLog, partition]
  cases rd A pivot with
  | none => rfl
  | some p =>
    cases rd A left with
    | none => rfl
    | some al =>
      simp only
      cases wr A pivot al with
      | none => rfl
      | some A1 =>
        simp only
        rw [← partLoopLog_fst]
        cases partLoopLog (A.length + 1) A1 (left + 1) right p with
        | none => rfl
        | some w =>
          obtain ⟨A2, r, log⟩ := w
          simp only [Option.map_some']
          cases rd A2 r with
          | none => rfl
          | some ar =>
            simp only
            cases wr A2 left ar with
            | none => rfl
            | some A3 =>
              simp only
              cases wr A3 r p with
              | none => rfl
              | some A4 => rfl

theorem partitionLog_mem (A : List Int) (left right pivot : Int) (A4 : List Int) (r : Int)
    (log : List Int) (h : partitionLog A left right pivot = some (A4, r, log))
    (h1 : left ≤ pivot) (h2 : pivot ≤ right) (h3 : left ≤ r) (h4 : r ≤ right) :
    ∀ i ∈ log, left ≤ i ∧ i ≤ right := by
  simp only [partitionLog] at h
  cases hrp : rd A pivot with
  | none => simp [hrp] at h
  | some p =>
    cases hrl : rd A left with
    | none => simp [hrp, hrl] at h
    | some al =>
      simp only [hrp, hrl] at h
      cases hw1 : wr A pivot al with
      | none => simp [hw1] at h
      | some A1 =>
        simp only [hw1] at h
        cases hloop : partLoopLog (A.length + 1) A1 (left + 1) right p with
        | none => simp [hloop] at h
        | some w =>
          obtain ⟨A2, r2, log2⟩ := w
          simp only [hloop] at h
          have hmem := partLoopLog_mem _ _ _ _ _ _ _ _ hloop
          cases hrr : rd A2 r2 with
          | none => simp [hrr] at h
          | some ar =>
            simp only [hrr] at h
            cases hw2 : wr A2 left ar with
            | none => simp [hw2] at h
            | some A3 =>
              simp only [hw2] at h
              cases hw3 : wr A3 r2 p with
              | none => simp [hw3] at h
              | some A5 =>
                simp only [hw3, Option.some.injEq, Prod.mk.injEq] at h
                obtain ⟨_, hr, hlog⟩ := h
                subst hr hlog
                intro i hi
                rcases List.mem_append.1 hi with hi | hi
                · rcases List.mem_append.1 hi with hi | hi
                  · simp only [List.mem_cons, List.mem_singleton, List.not_mem_nil,
                      or_false] at hi
                    rcases hi with hi | hi | hi <;> subst hi <;> omega
                  · have := hmem i hi; omega
                · simp only [List.mem_cons, List.mem_singleton, List.not_mem_nil,
                    or_false] at hi
                  rcases hi with hi | hi | hi <;> subst hi <;> omega

/-- C14: for `0 ≤ left ≤ pivot ≤ right < n`, `partition` returns, and every cell it
reads or writes (the scans with the cursors `r` and `l` included) has an index in
`left .. right`. -/
theorem partition_accesses (A : List Int) (left right pivot : Int) (h0 : 0 ≤ left)
    (h1 : left ≤ pivot) (h2 : pivot ≤ right) (h3 : right < A.length) :
    ∃ A1 r log, partitionLog A left right pivot = some (A1, r, log) ∧
      partition A left right pivot = some (A1, r) ∧
      ∀ i ∈ log, left ≤ i ∧ i ≤ right := by
  obtain ⟨A1, r, hrun, _, ha, hb, _⟩ := partition_spec A left right pivot h0 h1 h2 h3
  have hfst := partitionLog_fst A left right pivot
  rw [hrun] at hfst
  cases hlog : partitionLog A left right pivot with
  | none => rw [hlog] at hfst; cases hfst
  | some w =>
    obtain ⟨A2, r2, log⟩ := w
    rw [hlog] at hfst
    simp only [Option.map_some', Option.some.injEq, Prod.mk.injEq] at hfst
    obtain ⟨hA, hr⟩ := hfst
    subst hA hr
    exact ⟨A2, r2, log, rfl, hrun, partitionLog_mem A left right pivot A2 r2 log hlog h1 h2 ha hb⟩

theorem partition_accesses_witness :
    ∃ A1 r log, partitionLog [5, 3, 8, 3, 1, 7] 1 4 2 = some (A1, r, log) ∧
      partition [5, 3, 8, 3, 1, 7] 1 4 2 = some (A1, r) ∧
      ∀ i ∈ log, (1 : Int) ≤ i ∧ i ≤ 4 :=
  partition_accesses [5, 3, 8, 3, 1, 7] 1 4 2 (by decide) (by decide) (by decide)
    (by decide)

/-! ## The index returned by `partition` -/

theorem eq_of_agree : ∀ (X Y : List Int), X.length = Y.length →
    (∀ j, j < X.length → X.getD j 0 = Y.getD j 0) → X = Y := by
  intro X
  induction X with
  | nil => intro Y hlen _; exact (List.length_eq_zero.1 hlen.symm).symm
  | cons x xs ih =>
    intro Y hlen h
    cases Y with
    | nil => simp at hlen
    | cons y ys =>
      have h0 : x = y := by simpa using h 0 (by simp)
      have := ih ys (by simpa using hlen)
        (fun j hj => by simpa using h (j + 1) (by simpa using hj))
      rw [h0, this]

theorem take_eq_of_agree : ∀ (X Y : List Int) (a : Nat), X.length = Y.length →
    (∀ j, j < a → j < X.length → X.getD j 0 = Y.getD j 0) → X.take a = Y.take a := by
  intro X
  induction X with
  | nil =>
    intro Y a hlen _
    rw [(List.length_eq_zero.1 hlen.symm)]
  | cons x xs ih =>
    intro Y a hlen h
    cases Y with
    | nil => simp at hlen
    | cons y ys =>
      cases a with
      | zero => rfl
      | succ a =>
        have h0 : x = y := by simpa using h 0 (by omega) (by simp)
        have := ih ys a (by simpa using hlen)
          (fun j hj hj2 => by simpa using h (j + 1) (by omega) (by simpa using hj2))
        simp only [List.take_succ_cons, h0, this]

theorem drop_eq_of_agree : ∀ (X Y : List Int) (b : Nat), X.length = Y.length →
    (∀ j, b ≤ j → j < X.length → X.getD j 0 = Y.getD j 0) → X.drop b = Y.drop b := by
  intro X
  induction X with
  | nil =>
    intro Y b hlen _
    rw [(List.length_eq_zero.1 hlen.symm)]
  | cons x xs ih =>
    intro Y b hlen h
    cases Y with
    | nil => simp at hlen
    | cons y ys =>
      cases b with
      | zero =>
        exact eq_of_agree _ _ hlen (fun j hj => h j (by omega) hj)
      | succ b =>
        have := ih ys b (by simpa using hlen)
          (fun j hj hj2 => by simpa using h (j + 1) (by omega) (by simpa using hj2))
        simpa using this

theorem countP_split (q : Int → Bool) (X : List Int) (a m : Nat) :
    X.countP q = (X.take a).countP q + ((X.drop a).take m).countP q
      + (X.drop (a + m)).countP q := by
  have h1 : X = X.take a ++ X.drop a := (List.take_append_drop a X).symm
  have h2 : X.drop a = (X.drop a).take m ++ (X.drop a).drop m :=
    (List.take_append_drop m (X.drop a)).symm
  have h3 : (X.drop a).drop m = X.drop (a + m) := by
    rw [List.drop_drop]
  conv_lhs => rw [h1, h2]
  rw [List.countP_append, List.countP_append, h3]
  omega

theorem getD_mid (X : List Int) (a m j : Nat) (hj : j < m) :
    ((X.drop a).take m).getD j 0 = X.getD (a + j) 0 := by
  simp [List.getD, List.getElem?_take, hj]

theorem countLe_partition (A : List Int) (left right pivot : Int) (h0 : 0 ≤ left)
    (h1 : left ≤ pivot) (h2 : pivot ≤ right) (h3 : right < A.length) :
    ∃ A1 r, partition A left right pivot = some (A1, r) ∧
      r = left + (countLe A left right (getI A pivot) : Int) - 1 := by
  obtain ⟨A1, r, hrun, hlen, ha, hb, hc, hd, he, hcnt, hfr, _⟩ :=
    partition_spec A left right pivot h0 h1 h2 h3
  refine ⟨A1, r, hrun, ?_⟩
  have hperm : A1.Perm A := List.perm_iff_count.2 hcnt
  have hg : ∀ (X : List Int) (j : Nat), X.getD j 0 = getI X (j : Int) := fun X j => by
    simp [getI]
  have htake : A1.take left.toNat = A.take left.toNat :=
    take_eq_of_agree _ _ _ hlen (fun j hj _ => by
      rw [hg, hg]; exact hfr j (by omega) (Or.inl (by omega)))
  have hdrop : A1.drop (left.toNat + (right - left + 1).toNat)
      = A.drop (left.toNat + (right - left + 1).toNat) :=
    drop_eq_of_agree _ _ _ hlen (fun j hj hj2 => by
      rw [hg, hg]; exact hfr j (by omega) (Or.inr (by omega)))
  have hs1 := countP_split (fun x => decide (x ≤ getI A pivot)) A1 left.toNat
    (right - left + 1).toNat
  have hs2 := countP_split (fun x => decide (x ≤ getI A pivot)) A left.toNat
    (right - left + 1).toNat
  rw [htake, hdrop, hperm.countP_eq] at hs1
  have hmid : countLe A left right (getI A pivot)
      = ((A1.drop left.toNat).take (right - left + 1).toNat).countP
          (fun x => decide (x ≤ getI A pivot)) := by
    unfold countLe; omega
  have hmidlen : ((A1.drop left.toNat).take (right - left + 1).toNat).length
      = (right - left + 1).toNat := by
    simp only [List.length_take, List.length_drop]; omega
  have hge : (r - left + 1).toNat ≤
      ((A1.drop left.toNat).take (right - left + 1).toNat).countP
        (fun x => decide (x ≤ getI A pivot)) := by
    apply countP_ge_of_head _ _ _ (by omega)
    intro j hj
    rw [getD_mid _ _ _ _ (by omega), hg]
    have := hd (left + j) (by omega) (by omega)
    simp only [decide_eq_true_eq]
    have hidx : ((left.toNat + j : Nat) : Int) = left + j := by omega
    rw [hidx]; exact this
  have hle : ((A1.drop left.toNat).take (right - left + 1).toNat).countP
        (fun x => decide (x ≤ getI A pivot)) ≤ (r - left + 1).toNat := by
    apply countP_le_of_tail
    intro j hj hj2
    rw [hmidlen] at hj2
    rw [getD_mid _ _ _ _ hj2, hg]
    have := he (left + j) (by omega) (by omega)
    simp only [decide_eq_false_iff_not]
    have hidx : ((left.toNat + j : Nat) : Int) = left + j := by omega
    rw [hidx]; omega
  omega

/-- C18: for `0 ≤ left ≤ pivot ≤ right < n`, the index returned by `partition` is
`left + c - 1`, where `c` is the number of cells of `A[left .. right]` whose value
before the call is at most the value `p` of `A[pivot]` before the call; `c` is the
same for every array whose sub-range `left .. right` has the same multiset of values. -/
theorem partition_index_formula (A : List Int) (left right pivot : Int) (h0 : 0 ≤ left)
    (h1 : left ≤ pivot) (h2 : pivot ≤ right) (h3 : right < A.length) :
    ∃ A1 r p, rd A pivot = some p ∧ partition A left right pivot = some (A1, r) ∧
      r = left + (countLe A left right p : Int) - 1 ∧
      ∀ B : List Int,
        ((B.drop left.toNat).take (right - left + 1).toNat).Perm
          ((A.drop left.toNat).take (right - left + 1).toNat) →
        countLe B left right p = countLe A left right p := by
  obtain ⟨A1, r, hrun, hr⟩ := countLe_partition A left right pivot h0 h1 h2 h3
  exact ⟨A1, r, getI A pivot, rd_eq (by omega) (by omega), hrun, hr,
    fun B hB => hB.countP_eq _⟩

theorem partition_index_formula_witness :
    ∃ A1 r p, rd [5, 3, 8, 3, 1, 7] 3 = some p ∧
      partition [5, 3, 8, 3, 1, 7] 1 4 3 = some (A1, r) ∧
      r = 1 + (countLe [5, 3, 8, 3, 1, 7] 1 4 p : Int) - 1 ∧
      ∀ B : List Int,
        ((B.drop (1 : Int).toNat).take ((4 : Int) - 1 + 1).toNat).Perm
          ((([5, 3, 8, 3, 1, 7] : List Int).drop (1 : Int).toNat).take
            ((4 : Int) - 1 + 1).toNat) →
        countLe B 1 4 p = countLe [5, 3, 8, 3, 1, 7] 1 4 p :=
  partition_index_formula [5, 3, 8, 3, 1, 7] 1 4 3 (by decide) (by decide) (by decide)
    (by decide)

/-- C13 (code defect): on `S = [1, 2]`, `n = 2`, `k = 2` the two outer iterations of
`naive` both end with `mini = 0`: the occurrence at index 0 is selected twice, the
one at index 1 never. -/
theorem naive_minis_repeat :
    naiveMinis (2 : Int).toNat [1, 2] 2 (-1) none = some [0, 0] ∧
      naiveWhile (2 : Int).toNat [1, 2] 2 (-1) none = some ([1, 2], 1) ∧
      ¬ ([0, 0] : List Int).Nodup := by
  decide

/-! ## What `naive` computes -/

theorem naiveCond_some_eq (x min last d i : Int) :
    naiveCond x min last (some d) i
      = some (decide (x < min ∧ (x > last ∨ (x = last ∧ d < i)))) := by
  unfold naiveCond
  by_cases h1 : x < min
  · by_cases h2 : x > last
    · simp [h1, h2]
    · by_cases h3 : x = last
      · subst h3
        by_cases h4 : d < i <;> simp [h1, h4]
      · simp [h1, h2, h3]
  · simp [h1]

theorem naiveFor_pick (list : List Int) (n last d : Int) (hn : n = list.length) :
    ∀ (fuel : Nat) (i min mini : Int), 0 ≤ i → (n - i).toNat < fuel →
      ∃ m mi, naiveFor fuel list n last (some d) i min mini = some (m, mi) ∧
        ((m = min ∧ mi = mini ∧
            ∀ j, i ≤ j → j < n →
              ¬ (getI list j < min ∧
                (getI list j > last ∨ (getI list j = last ∧ d < j)))) ∨
          (i ≤ mi ∧ mi < n ∧ m = getI list mi ∧ m < min ∧
            (m > last ∨ (m = last ∧ d < mi)) ∧
            ∀ j, i ≤ j → j < n → getI list j < min →
              (getI list j > last ∨ (getI list j = last ∧ d < j)) →
              (m < getI list j ∨ (m = getI list j ∧ mi ≤ j)))) := by
  intro fuel
  induction fuel with
  | zero => intro i min mini _ hf; omega
  | succ f ih =>
    intro i min mini hi hf
    by_cases hlt : i < n
    · have hrd : rd list i = some (getI list i) := rd_eq hi (by omega)
      by_cases hc : getI list i < min ∧
          (getI list i > last ∨ (getI list i = last ∧ d < i))
      · have hcond : naiveCond (getI list i) min last (some d) i = some true := by
          rw [naiveCond_some_eq]; simp only [hc, and_self, decide_True]
        obtain ⟨m, mi, hr, hcase⟩ := ih (i + 1) (getI list i) i (by omega) (by omega)
        refine ⟨m, mi, by simp [naiveFor, hlt, hrd, hcond, hr], Or.inr ?_⟩
        rcases hcase with ⟨hm, hmi, hnone⟩ | ⟨h1, h2, h3, h4, h5, h6⟩
        · subst hm hmi
          refine ⟨le_refl _, hlt, rfl, hc.1, hc.2, ?_⟩
          intro j hj1 hj2 hj3 hj4
          by_cases hji : j = mi
          · subst hji; right; exact ⟨rfl, le_refl _⟩
          · have := hnone j (by omega) hj2
            have hge : ¬ (getI list j < getI list mi) := fun h => this ⟨h, hj4⟩
            omega
        · refine ⟨by omega, h2, h3, by omega, h5, ?_⟩
          intro j hj1 hj2 hj3 hj4
          by_cases hji : j = i
          · subst hji; left; exact h4
          · by_cases hlt2 : getI list j < getI list i
            · exact h6 j (by omega) hj2 hlt2 hj4
            · left; omega
      · have hcond : naiveCond (getI list i) min last (some d) i = some false := by
          rw [naiveCond_some_eq]; simp only [hc, decide_False]
        obtain ⟨m, mi, hr, hcase⟩ := ih (i + 1) min mini (by omega) (by omega)
        refine ⟨m, mi, by simp [naiveFor, hlt, hrd, hcond, hr], ?_⟩
        rcases hcase with ⟨hm, hmi, hnone⟩ | ⟨h1, h2, h3, h4, h5, h6⟩
        · left
          refine ⟨hm, hmi, ?_⟩
          intro j hj1 hj2
          by_cases hji : j = i
          · subst hji; exact hc
          · exact hnone j (by omega) hj2
        · right
          refine ⟨by omega, h2, h3, h4, h5, ?_⟩
          intro j hj1 hj2 hj3 hj4
          by_cases hji : j = i
          · subst hji; exact absurd ⟨hj3, hj4⟩ hc
          · exact h6 j (by omega) hj2 hj3 hj4
    · refine ⟨min, mini, by simp [naiveFor, hlt], Or.inl ⟨rfl, rfl, ?_⟩⟩
      intro j hj1 hj2; omega

theorem naiveIter_pick (S : List Int) (n last d : Int) (hn : n = S.length) (h1 : 1 ≤ n) :
    ∃ m mi, naiveIter S n last (some d) = some (m, mi) ∧
      ((m = getI S 0 ∧ mi = 0 ∧
          ∀ j, 1 ≤ j → j < n →
            ¬ (getI S j < getI S 0 ∧ (getI S j > last ∨ (getI S j = last ∧ d < j)))) ∨
        (1 ≤ mi ∧ mi < n ∧ m = getI S mi ∧ m < getI S 0 ∧
          (m > last ∨ (m = last ∧ d < mi)) ∧
          ∀ j, 1 ≤ j → j < n → getI S j < getI S 0 →
            (getI S j > last ∨ (getI S j = last ∧ d < j)) →
            (m < getI S j ∨ (m = getI S j ∧ mi ≤ j)))) := by
  have hrd : rd S 0 = some (getI S 0) := rd_eq (le_refl _) (by omega)
  obtain ⟨m, mi, hr, hcase⟩ :=
    naiveFor_pick S n last d hn (n.toNat + 1) 1 (getI S 0) 0 (by omega) (by omega)
  exact ⟨m, mi, by simp [naiveIter, hrd, hr], hcase⟩
theorem countP_range_succ (q : Nat → Bool) (n : Nat) :
    (List.range (n + 1)).countP q = (List.range n).countP q + (if q n = true then 1 else 0) := by
  rw [List.range_succ, List.countP_append]
  by_cases h : q n = true <;> simp [h]

theorem countP_range_congr (P Q : Nat → Bool) (n : Nat) (h : ∀ i, i < n → Q i = P i) :
    (List.range n).countP Q = (List.range n).countP P := by
  induction n with
  | zero => rfl
  | succ n ih =>
    rw [countP_range_succ, countP_range_succ, ih (fun i hi => h i (by omega)),
      h n (by omega)]

theorem countP_range_mono (P Q : Nat → Bool) (n : Nat)
    (h : ∀ i, i < n → P i = true → Q i = true) :
    (List.range n).countP P ≤ (List.range n).countP Q := by
  induction n with
  | zero => simp
  | succ n ih =>
    rw [countP_range_succ, countP_range_succ]
    have := ih (fun i hi => h i (by omega))
    have hn := h n (by omega)
    have e1 : (if P n = true then 1 else 0) ≤ (if Q n = true then 1 else 0) := by
      by_cases hp : P n = true
      · simp [hp, hn hp]
      · simp [hp]
    omega

theorem countP_range_insert (P Q : Nat → Bool) :
    ∀ (n d : Nat), d < n → (∀ i, i < n → (Q i = true ↔ (P i = true ∨ i = d))) →
      ¬ (P d = true) → (List.range n).countP Q = (List.range n).countP P + 1 := by
  intro n
  induction n with
  | zero => intro d hd; omega
  | succ n ih =>
    intro d hd h hPd
    rw [countP_range_succ, countP_range_succ]
    by_cases hdn : d = n
    · subst hdn
      have hQ : Q d = true := (h d (by omega)).2 (Or.inr rfl)
      have hcongr : (List.range d).countP Q = (List.range d).countP P :=
        countP_range_congr P Q d (fun i hi => by
          have := h i (by omega)
          have hne : i ≠ d := by omega
          cases hq : Q i <;> cases hp : P i <;> simp_all)
      simp [hQ, hPd, hcongr]
    · have := ih d (by omega) (fun i hi => h i (by omega)) hPd
      have hn := h n (by omega)
      have hne : n ≠ d := fun h => hdn h.symm
      have hQP : Q n = P n := by
        cases hq : Q n <;> cases hp : P n <;> simp_all
      rw [this, hQP]
      omega

theorem countP_eq_range (q : Int → Bool) :
    ∀ S : List Int,
      S.countP q = (List.range S.length).countP (fun i : Nat => q (getI S (i : Int))) := by
  intro S
  induction S with
  | nil => rfl
  | cons x xs ih =>
    rw [List.length_cons, List.range_succ_eq_map, List.countP_cons, List.countP_cons,
      List.countP_map, ih]
    have h0 : getI (x :: xs) ((0 : Nat) : Int) = x := by simp [getI]
    have hcongr : (List.range xs.length).countP
          ((fun i : Nat => q (getI (x :: xs) (i : Int))) ∘ Nat.succ)
        = (List.range xs.length).countP (fun i : Nat => q (getI xs (i : Int))) := by
      apply countP_range_congr
      intro i _
      simp [getI]
    rw [hcongr, h0]

/-- A value with at most `t` smaller elements and more than `t` elements not above
it is the order statistic of rank `t`. -/
theorem sorted_rd_of_counts (S : List Int) (v : Int) (t : Nat)
    (ha : S.countP (fun x => decide (x < v)) ≤ t)
    (hb : t + 1 ≤ S.countP (fun x => decide (x ≤ v))) :
    rd (sorted S) t = some v := by
  have hLS : (sorted S).Perm S := List.perm_insertionSort _ S
  have hsorted : (sorted S).Sorted (· ≤ ·) := List.sorted_insertionSort _ S
  have hlen : (sorted S).length = S.length := hLS.length_eq
  have hcl := List.countP_le_length (fun x => decide (x ≤ v)) (l := S)
  rw [rd_eq (by omega) (by omega)]
  have hgL : getI (sorted S) (t : Int) = (sorted S).getD t 0 := by simp [getI]
  have hc : ¬ (getI (sorted S) t < v) := by
    intro hlt
    have : t + 1 ≤ (sorted S).countP (fun x => decide (x < v)) := by
      apply countP_ge_of_head _ _ _ (by omega)
      intro i hi
      have := sorted_getD_le hsorted (show i ≤ t by omega) (by omega)
      rw [← hgL] at this
      simp only [decide_eq_true_eq]; omega
    rw [hLS.countP_eq] at this
    omega
  have hd : ¬ (v < getI (sorted S) t) := by
    intro hlt
    have : (sorted S).countP (fun x => decide (x ≤ v)) ≤ t := by
      apply countP_le_of_tail
      intro i hi hi2
      have := sorted_getD_le hsorted hi hi2
      rw [← hgL] at this
      simp only [decide_eq_false_iff_not]; omega
    rw [hLS.countP_eq] at this
    omega
  congr 1
  omega

/-- With fewer than `t + 1` elements below `a`, the order statistic of rank `t` is at
least `a`. -/
theorem sorted_rd_ge_of_count (S : List Int) (a : Int) (t : Nat) (ht : t < S.length)
    (ha : S.countP (fun x => decide (x < a)) ≤ t) :
    ∃ s, rd (sorted S) t = some s ∧ a ≤ s := by
  have hLS : (sorted S).Perm S := List.perm_insertionSort _ S
  have hsorted : (sorted S).Sorted (· ≤ ·) := List.sorted_insertionSort _ S
  have hlen : (sorted S).length = S.length := hLS.length_eq
  refine ⟨getI (sorted S) t, rd_eq (by omega) (by omega), ?_⟩
  have hgL : getI (sorted S) (t : Int) = (sorted S).getD t 0 := by simp [getI]
  by_contra hlt
  have : t + 1 ≤ (sorted S).countP (fun x => decide (x < a)) := by
    apply countP_ge_of_head _ _ _ (by omega)
    intro i hi
    have := sorted_getD_le hsorted (show i ≤ t by omega) (by omega)
    rw [← hgL] at this
    simp only [decide_eq_true_eq]; omega
  rw [hLS.countP_eq] at this
  omega
theorem naiveCond_none_eq (x min i : Int) (hx : x ≠ -1) :
    naiveCond x min (-1) none i = naiveCond x min (-1) (some 0) i := by
  unfold naiveCond
  by_cases h1 : x < min
  · by_cases h2 : x > -1
    · simp [h1, h2]
    · simp [h1, h2, hx]
  · simp [h1]

theorem naiveFor_none_eq (S : List Int) (n : Int) (hnn : ∀ x ∈ S, 0 ≤ x) :
    ∀ (fuel : Nat) (i min mini : Int),
      naiveFor fuel S n (-1) none i min mini
        = naiveFor fuel S n (-1) (some 0) i min mini := by
  intro fuel
  induction fuel with
  | zero => intro i min mini; rfl
  | succ f ih =>
    intro i min mini
    simp only [naiveFor]
    split
    · cases hrd : rd S i with
      | none => rfl
      | some x =>
        obtain ⟨hi0, hi1, hxe⟩ := rd_some_iff hrd
        have hx : 0 ≤ x := by rw [hxe]; exact hnn _ (getI_mem hi0 hi1)
        simp only
        rw [naiveCond_none_eq x min i (by omega)]
        cases naiveCond x min (-1) (some 0) i with
        | none => rfl
        | some b =>
          cases b with
          | true => exact ih _ _ _
          | false => exact ih _ _ _
    · rfl

theorem naiveWhile_none_eq (S : List Int) (n : Int) (hnn : ∀ x ∈ S, 0 ≤ x) (k : Nat) :
    naiveWhile k S n (-1) none = naiveWhile k S n (-1) (some 0) := by
  cases k with
  | zero => rfl
  | succ k =>
    simp only [naiveWhile, naiveIter]
    cases rd S 0 with
    | none => rfl
    | some min0 =>
      simp only
      rw [naiveFor_none_eq S n hnn]

theorem rankLe_init (S : List Int) (d : Int) (hnn : ∀ x ∈ S, 0 ≤ x) :
    rankLe S (-1) d = 0 := by
  unfold rankLe
  rw [List.countP_eq_zero]
  intro i hi
  have hi2 : i < S.length := List.mem_range.1 hi
  have := hnn _ (getI_mem (i := (i : Int)) (by omega) (by omega))
  simp only [decide_eq_true_eq]
  omega

theorem naiveWhile_rank (S : List Int) (n : Int) (hn : n = S.length) (h1 : 1 ≤ n) :
    ∀ (k j : Nat) (last d : Int),
      ((last < getI S 0 ∧ rankLe S last d = j ∧
          (1 ≤ j → 0 ≤ d ∧ d < n ∧ getI S d = last)) ∨
        (last = getI S 0 ∧ S.countP (fun x => decide (x < getI S 0)) < j)) →
      ∃ v d1, naiveWhile k S n last (some d) = some (S, v) ∧
        ((v < getI S 0 ∧ rankLe S v d1 = j + k ∧
            (1 ≤ j + k → 0 ≤ d1 ∧ d1 < n ∧ getI S d1 = v)) ∨
          (v = getI S 0 ∧ S.countP (fun x => decide (x < getI S 0)) < j + k)) := by
  intro k
  induction k with
  | zero =>
    intro j last d h
    exact ⟨last, d, rfl, h⟩
  | succ k ih =>
    intro j last d h
    obtain ⟨m, mi, hrun, hcase⟩ := naiveIter_pick S n last d hn h1
    have hnext : (m < getI S 0 ∧ rankLe S m mi = j + 1 ∧
          (1 ≤ j + 1 → 0 ≤ mi ∧ mi < n ∧ getI S mi = m)) ∨
        (m = getI S 0 ∧ S.countP (fun x => decide (x < getI S 0)) < j + 1) := by
      rcases h with ⟨hl, hr, _⟩ | ⟨hl, hc⟩
      · rcases hcase with ⟨hm, _, hnone⟩ | ⟨b1, b2, b3, b4, b5, b6⟩
        · right
          refine ⟨hm, ?_⟩
          rw [countP_eq_range]
          have hmono : (List.range S.length).countP
                (fun i : Nat => decide (getI S (i : Int) < getI S 0))
              ≤ rankLe S last d := by
            apply countP_range_mono
            intro i hi hlt
            simp only [decide_eq_true_eq] at hlt ⊢
            have hi0 : i ≠ 0 := by
              intro h0; subst h0; simp at hlt
            have := hnone i (by omega) (by omega)
            omega
          omega
        · left
          refine ⟨b4, ?_, fun _ => ⟨by omega, b2, b3.symm⟩⟩
          have hmi : ((mi.toNat : Nat) : Int) = mi := by omega
          have hins : rankLe S m mi = rankLe S last d + 1 := by
            apply countP_range_insert _ _ S.length mi.toNat (by omega)
            · intro i hi
              simp only [decide_eq_true_eq]
              constructor
              · intro hle
                by_cases hold : getI S (i : Int) < last ∨
                    (getI S (i : Int) = last ∧ (i : Int) ≤ d)
                · exact Or.inl hold
                · right
                  have hi0 : i ≠ 0 := by
                    intro h0; subst h0
                    simp only [Nat.cast_zero] at hle
                    omega
                  have := b6 i (by omega) (by omega) (by omega) (by omega)
                  omega
              · intro hor
                rcases hor with hold | heq
                · omega
                · subst heq
                  rw [hmi, ← b3]
                  right; exact ⟨rfl, le_refl _⟩
            · simp only [decide_eq_true_eq]
              rw [hmi, ← b3]
              omega
          omega
      · right
        rcases hcase with ⟨hm, _, _⟩ | ⟨b1, b2, b3, b4, b5, b6⟩
        · exact ⟨hm, by omega⟩
        · omega
    obtain ⟨v, d1, hrun2, hfin⟩ := ih (j + 1) m mi hnext
    refine ⟨v, d1, by simp [naiveWhile, hrun, hrun2], ?_⟩
    rcases hfin with ⟨f1, f2, f3⟩ | ⟨f1, f2⟩
    · exact Or.inl ⟨f1, by omega, fun _ => f3 (by omega)⟩
    · exact Or.inr ⟨f1, by omega⟩

/-- C17: for a non-empty sequence `S` of `n` non-negative integers and `1 ≤ k ≤ n`,
`naive(S, n, k)` returns `min(sorted(S)[k-1], S[0])` and leaves `S` as it is; this is
`sorted(S)[k-1]` exactly when that value does not exceed `S[0]`. -/
theorem naive_returns_min (S : List Int) (n k : Int) (hn : n = S.length) (hk1 : 1 ≤ k)
    (hkn : k ≤ n) (hnn : ∀ x ∈ S, 0 ≤ x) :
    ∃ s a, rd (sorted S) (k - 1) = some s ∧ rd S 0 = some a ∧
      naive S n k = some (S, min s a) ∧ (min s a = s ↔ s ≤ a) := by
  have ha0 : 0 ≤ getI S 0 := hnn _ (getI_mem (le_refl _) (by omega))
  have hk2 : ¬ (k < 0) := by omega
  have hrun0 : naive S n k = naiveWhile k.toNat S n (-1) (some 0) := by
    simp only [naive, hk2, if_false]
    exact naiveWhile_none_eq S n hnn _
  obtain ⟨v, d1, hrun, hfin⟩ := naiveWhile_rank S n hn (by omega) k.toNat 0 (-1) 0
    (Or.inl ⟨by omega, rankLe_init S 0 hnn, fun h => by omega⟩)
  have hidx : k - 1 = ((k.toNat - 1 : Nat) : Int) := by omega
  have hrd0 : rd S 0 = some (getI S 0) := rd_eq (le_refl _) (by omega)
  rcases hfin with ⟨f1, f2, f3⟩ | ⟨f1, f2⟩
  · obtain ⟨g1, g2, g3⟩ := f3 (by omega)
    have hd1 : ((d1.toNat : Nat) : Int) = d1 := by omega
    have hA : S.countP (fun x => decide (x < v)) ≤ k.toNat - 1 := by
      rw [countP_eq_range]
      have hins : (List.range S.length).countP
            (fun i : Nat => decide (getI S (i : Int) < v ∨ i = d1.toNat))
          = (List.range S.length).countP (fun i : Nat => decide (getI S (i : Int) < v))
            + 1 := by
        apply countP_range_insert _ _ S.length d1.toNat (by omega)
        · intro i _
          simp only [decide_eq_true_eq]
        · simp only [decide_eq_true_eq]
          rw [hd1]; omega
      have hmono : (List.range S.length).countP
            (fun i : Nat => decide (getI S (i : Int) < v ∨ i = d1.toNat))
          ≤ rankLe S v d1 := by
        apply countP_range_mono
        intro i _ hi
        simp only [decide_eq_true_eq] at hi ⊢
        rcases hi with hi | hi
        · exact Or.inl hi
        · subst hi; rw [hd1]; exact Or.inr ⟨g3, le_refl _⟩
      omega
    have hB : k.toNat - 1 + 1 ≤ S.countP (fun x => decide (x ≤ v)) := by
      rw [countP_eq_range]
      have hmono : rankLe S v d1 ≤ (List.range S.length).countP
            (fun i : Nat => decide (getI S (i : Int) ≤ v)) := by
        apply countP_range_mono
        intro i _ hi
        simp only [decide_eq_true_eq] at hi ⊢
        omega
      omega
    refine ⟨v, getI S 0, ?_, hrd0, ?_, min_eq_left_iff⟩
    · rw [hidx]; exact sorted_rd_of_counts S v _ hA hB
    · rw [hrun0, hrun, min_eq_left (le_of_lt f1)]
  · obtain ⟨s, hs, hge⟩ := sorted_rd_ge_of_count S (getI S 0) (k.toNat - 1) (by omega)
      (by omega)
    refine ⟨s, getI S 0, by rw [hidx]; exact hs, hrd0, ?_, min_eq_left_iff⟩
    rw [hrun0, hrun, f1, min_eq_right hge]

theorem naive_returns_min_witness :
    ∃ s a, rd (sorted [3, 1, 4, 1, 5, 0, 2]) (6 - 1) = some s ∧
      rd [3, 1, 4, 1, 5, 0, 2] 0 = some a ∧
      naive [3, 1, 4, 1, 5, 0, 2] 7 6 = some ([3, 1, 4, 1, 5, 0, 2], min s a) ∧
      (min s a = s ↔ s ≤ a) :=
  naive_returns_min [3, 1, 4, 1, 5, 0, 2] 7 6 (by decide) (by decide) (by decide)
    (by decide)

end Selection
